import Mathlib

/-!
Verification development for the contract-parsing pipeline
(`rules_parser.py`, `auto_fix.py`, `grader.py`).

The embedding works over ASCII text (the whitespace and digit classes model
Python's `\s` and `\d` on ASCII input).  Field values that Python handles as
arbitrary dictionary entries are modelled by the small value universe `PyVal`
(`None`, `str`, `int`), which covers every defect class the specification
discusses (null labels, non-string numbers, non-string dates, stray indices).
-/

/-- Whitespace test modelling Python's `\s` / `str.strip()` on ASCII text. -/
def pyWS (c : Char) : Bool :=
  c = ' ' || c = '\t' || c = '\n' || c = '\r' || c = '\x0b' || c = '\x0c'

/-- Remove leading and trailing whitespace from a character list
(Python `str.strip()`). -/
def pyStripL (l : List Char) : List Char :=
  ((l.dropWhile pyWS).reverse.dropWhile pyWS).reverse

/-- Python `str.strip()`. -/
def pyStrip (s : String) : String :=
  ⟨pyStripL s.toList⟩

/-- Accumulator pass grouping a character list into whitespace-separated
chunks (empty chunks mark whitespace positions). -/
def wordsInner (l : List Char) : List (List Char) :=
  l.foldr
    (fun c acc =>
      if pyWS c then [] :: acc
      else
        match acc with
        | [] => [[c]]
        | w :: ws => (c :: w) :: ws)
    []

/-- Maximal runs of non-whitespace characters (the words of the string). -/
def pyWordsL (l : List Char) : List (List Char) :=
  (wordsInner l).filter (fun w => !w.isEmpty)

/-- Join words with single spaces. -/
def joinWordsL (ws : List (List Char)) : List Char :=
  match ws with
  | [] => []
  | w :: rest => w ++ (rest.foldr (fun v acc => ' ' :: v ++ acc) [])

/-- Source `normalize_whitespace`: `re.sub(r'\s+', ' ', text or "").strip()`.
Collapsing every whitespace run to a single space and stripping the ends is
the same as joining the maximal non-whitespace words with single spaces. -/
def normalize_whitespace (s : String) : String :=
  ⟨joinWordsL (pyWordsL s.toList)⟩

/-- Python `str.upper()` restricted to ASCII letters. -/
def pyUpper (s : String) : String :=
  ⟨s.toList.map Char.toUpper⟩

/-- Python `str.lower()` restricted to ASCII letters. -/
def pyLower (s : String) : String :=
  ⟨s.toList.map Char.toLower⟩

/-- Value universe for the loosely-typed dictionary fields handled by
`clean_and_validate_contract` and the grader: `None`, strings and ints. -/
inductive PyVal where
  | vnone
  | vstr (s : String)
  | vint (n : Int)
deriving DecidableEq, Repr

/-- Python `str(...)` on the modelled values. -/
def pyStr : PyVal → String
  | .vnone => "None"
  | .vstr s => s
  | .vint n => toString n

/-- Python truthiness of the modelled values. -/
def pyTruthy : PyVal → Bool
  | .vnone => false
  | .vstr s => s ≠ ""
  | .vint n => n ≠ 0

/-- Ten characters shaped `\d{4}-\d{2}-\d{2}`. -/
def isIsoShapeL : List Char → Bool
  | [a, b, c, d, e, f, g, h, i, j] =>
    a.isDigit && b.isDigit && c.isDigit && d.isDigit && e = '-' &&
    f.isDigit && g.isDigit && h = '-' && i.isDigit && j.isDigit
  | _ => false

/-- Source check `re.match(r'^\d{4}-\d{2}-\d{2}$', s)` in `auto_fix.py`.
Python's `$` matches at the end of the string or just before a newline that is
the last character, so a trailing `"\n"` is tolerated. -/
def re_match_iso_dollar (s : String) : Bool :=
  let l := s.toList
  isIsoShapeL l || (l.getLast? = some '\n' && isIsoShapeL l.dropLast)

/-- Grader check `re.fullmatch(r"\d{4}-\d{2}-\d{2}", ed)`: the whole string
must match, with no newline allowance. -/
def re_fullmatch_iso (s : String) : Bool :=
  isIsoShapeL s.toList

/-- A collection-typed dictionary entry: either a well-formed list of `α`
or a stray non-list value (on which Python iteration would misbehave). -/
inductive PyColl (α : Type) where
  | scalar (v : PyVal)
  | cl (xs : List α)
deriving DecidableEq, Repr

/-- Clause dictionary as consumed by `clean_and_validate_contract` and the
grader: each schema field may be absent (`none`) or hold any `PyVal`. -/
structure RawClause where
  text : Option PyVal
  label : Option PyVal
  index : Option PyVal
deriving DecidableEq, Repr

/-- Section dictionary: `title` is never touched by auto-fix, `number` may be
any value, `clauses` may be absent, a stray scalar, or a list of clauses. -/
structure RawSection where
  title : Option PyVal
  number : Option PyVal
  clauses : Option (PyColl RawClause)
deriving DecidableEq, Repr

/-- Contract dictionary for the auto-fixer and the grader. -/
structure RawContract where
  title : Option PyVal
  contract_type : Option PyVal
  effective_date : Option PyVal
  sections : Option (PyColl RawSection)
deriving DecidableEq, Repr

/-- Truthiness of `s.get('clauses')` in the filter
`[s for s in cleaned_data['sections'] if s.get('clauses')]`. -/
def clausesTruthy : Option (PyColl RawClause) → Bool
  | none => false
  | some (.scalar v) => pyTruthy v
  | some (.cl cs) => !cs.isEmpty

/-- Indexed map mirroring Python `for i, x in enumerate(xs)` starting at `i`. -/
def enumMapFrom {α β : Type} (f : Nat → α → β) : Nat → List α → List β
  | _, [] => []
  | i, a :: as => f i a :: enumMapFrom f (i + 1) as

/-- Per-clause body of the auto-fix loop: `clause['index'] = i`; null or
absent labels become `""`, others are stringified and stripped; string text
has its whitespace collapsed. -/
def fixClauseAt (i : Nat) (c : RawClause) : RawClause :=
  { text :=
      match c.text with
      | some (.vstr s) => some (.vstr (normalize_whitespace s))
      | t => t
    label :=
      match c.label with
      | none => some (.vstr "")
      | some .vnone => some (.vstr "")
      | some v => some (.vstr (pyStrip (pyStr v)))
    index := some (.vint (i : Int)) }

/-- Number repair in the auto-fix section loop: a present non-null value is
stringified and stripped, null and absent values are untouched. -/
def fixNumberVal : Option PyVal → Option PyVal
  | some .vnone => some PyVal.vnone
  | some v => some (PyVal.vstr (pyStrip (pyStr v)))
  | none => none

/-- Per-section body of the auto-fix loop.  A non-null `number` is stringified
and stripped; enumerating a non-list `clauses` value raises in Python
(`none` result); an absent `clauses` key iterates the default `[]`. -/
def fixSection : RawSection → Option RawSection
  | ⟨title, number, none⟩ => some ⟨title, fixNumberVal number, none⟩
  | ⟨_, _, some (.scalar _)⟩ => none
  | ⟨title, number, some (.cl cs)⟩ =>
    some ⟨title, fixNumberVal number, some (.cl (enumMapFrom fixClauseAt 0 cs))⟩

/-- Sequenced processing of the kept sections (Python raises abort the call). -/
def fixSectionList : List RawSection → Option (List RawSection)
  | [] => some []
  | s :: ss =>
    match fixSection s with
    | none => none
    | some t =>
      match fixSectionList ss with
      | none => none
      | some ts => some (t :: ts)

/-- Date rule of `clean_and_validate_contract` on the field value: a present,
non-null value is kept exactly when `str(value)` passes the (newline-tolerant)
anchored regex, otherwise it becomes `None`; null and absent values are kept
unchanged. -/
def fixDateVal : Option PyVal → Option PyVal
  | some .vnone => some .vnone
  | some v => if re_match_iso_dollar (pyStr v) then some v else some .vnone
  | none => none

/-- Step 1 of `clean_and_validate_contract` applied to the document. -/
def fixEffectiveDate (data : RawContract) : RawContract :=
  { data with effective_date := fixDateVal data.effective_date }

/-- Section passes of `clean_and_validate_contract` on the already
date-fixed document: filter out falsy `clauses`, then run the per-section
repair loop.  When the `sections` value is a non-list, Python raises while
building the filter comprehension — except for the empty string, which
iterates to `[]`.  An absent `sections` key skips both passes. -/
def cleanSectionsPass (cleaned : RawContract) : Option RawContract :=
  match cleaned.sections with
  | none => some cleaned
  | some (.scalar v) =>
    match v with
    | .vstr s => if s = "" then some { cleaned with sections := some (.cl []) } else none
    | _ => none
  | some (.cl ss) =>
    match fixSectionList (ss.filter fun s => clausesTruthy s.clauses) with
    | none => none
    | some fixedSecs => some { cleaned with sections := some (.cl fixedSecs) }

/-- Source `clean_and_validate_contract` (auto-fix).  Works on a deep copy, so
the call returns a new document; `none` models a raised exception. -/
def clean_and_validate_contract (data : RawContract) : Option RawContract :=
  cleanSectionsPass (fixEffectiveDate data)

/-- Grader helper `non_empty_str`: the value must be a string whose strip is
non-empty (an absent key defaults to `""`, which fails the check). -/
def non_empty_str : Option PyVal → Bool
  | some (.vstr s) => pyStrip s ≠ ""
  | _ => false

/-- Indexed conjunction mirroring Python `for ci, cl in enumerate(clauses)`
with one check per element. -/
def enumAllFrom {α : Type} (f : Nat → α → Bool) : Nat → List α → Bool
  | _, [] => true
  | i, a :: as => f i a && enumAllFrom f (i + 1) as

/-- Grader checks for one clause at position `ci`. -/
def clauseChecks (ci : Nat) (c : RawClause) : Bool :=
  non_empty_str c.text &&
  (match c.label with
   | none => true
   | some (.vstr _) => true
   | some _ => false) &&
  (match c.index with
   | some (.vint n) => n = (ci : Int)
   | _ => false)

/-- Grader checks for one section: non-empty title, string-or-null number,
non-empty clause list, and every clause check at its position. -/
def sectionChecks (sec : RawSection) : Bool :=
  non_empty_str sec.title &&
  (match sec.number with
   | none => true
   | some .vnone => true
   | some (.vstr _) => true
   | some (.vint _) => false) &&
  (match sec.clauses with
   | some (.cl (c :: cs)) => enumAllFrom clauseChecks 0 (c :: cs)
   | _ => false)

/-- Grader `is_valid_against_pydantic_like_rules`, embedded as its `passed`
component (the conjunction of all checks; the source also returns the list of
violation messages, which is empty exactly when this is `true`). -/
def is_valid_against_pydantic_like_rules (c : RawContract) : Bool :=
  non_empty_str c.title &&
  non_empty_str c.contract_type &&
  (match c.effective_date with
   | none => true
   | some .vnone => true
   | some (.vstr s) => re_fullmatch_iso s
   | some (.vint _) => false) &&
  (match c.sections with
   | some (.cl ss) => ss.all sectionChecks
   | _ => false)


/-! ### Lemmas about stripping and whitespace normalization -/

theorem dropWhile_head_false {α : Type} (p : α → Bool) :
    ∀ (l : List α) {x : α} {xs : List α}, l.dropWhile p = x :: xs → p x = false := by
  intro l
  induction l with
  | nil => intro x xs h; simp at h
  | cons a as ih =>
    intro x xs h
    rw [List.dropWhile_cons] at h
    by_cases hp : p a
    · rw [if_pos hp] at h
      exact ih h
    · rw [if_neg hp] at h
      cases h
      simpa using hp

theorem dropWhile_dropWhile {α : Type} (p : α → Bool) (l : List α) :
    (l.dropWhile p).dropWhile p = l.dropWhile p := by
  cases h : l.dropWhile p with
  | nil => rfl
  | cons x xs =>
    have hx := dropWhile_head_false p l h
    rw [List.dropWhile_cons, if_neg (by simp [hx])]

theorem pyStripL_eq_append (l : List Char) :
    l.dropWhile pyWS = pyStripL l ++ ((l.dropWhile pyWS).reverse.takeWhile pyWS).reverse := by
  conv_lhs => rw [← List.reverse_reverse (l.dropWhile pyWS),
    ← List.takeWhile_append_dropWhile (p := pyWS) (l := (l.dropWhile pyWS).reverse),
    List.reverse_append]
  rfl

theorem pyStripL_head_false (l : List Char) {x : Char} {xs : List Char}
    (h : pyStripL l = x :: xs) : pyWS x = false := by
  have happ := pyStripL_eq_append l
  rw [h, List.cons_append] at happ
  exact dropWhile_head_false pyWS l happ

theorem pyStripL_idem (l : List Char) : pyStripL (pyStripL l) = pyStripL l := by
  have hfront : (pyStripL l).dropWhile pyWS = pyStripL l := by
    cases hs : pyStripL l with
    | nil => rfl
    | cons x xs =>
      have hx := pyStripL_head_false l hs
      rw [List.dropWhile_cons, if_neg (by simp [hx])]
  have hback : (pyStripL l).reverse.dropWhile pyWS = (pyStripL l).reverse := by
    show ((((l.dropWhile pyWS).reverse.dropWhile pyWS).reverse).reverse).dropWhile pyWS
        = (((l.dropWhile pyWS).reverse.dropWhile pyWS).reverse).reverse
    rw [List.reverse_reverse]
    exact dropWhile_dropWhile pyWS _
  show (((pyStripL l).dropWhile pyWS).reverse.dropWhile pyWS).reverse = pyStripL l
  rw [hfront, hback, List.reverse_reverse]

theorem pyStrip_idem (s : String) : pyStrip (pyStrip s) = pyStrip s :=
  congrArg (fun l => (⟨l⟩ : String)) (pyStripL_idem s.toList)

theorem wordsInner_cons (c : Char) (l : List Char) :
    wordsInner (c :: l) =
      (if pyWS c then [] :: wordsInner l
       else
        match wordsInner l with
        | [] => [[c]]
        | w :: ws => (c :: w) :: ws) := rfl

theorem wordsInner_chars (l : List Char) :
    ∀ w ∈ wordsInner l, ∀ c ∈ w, pyWS c = false := by
  induction l with
  | nil => intro w hw; simp [wordsInner] at hw
  | cons a as ih =>
    intro w hw c hc
    rw [wordsInner_cons] at hw
    by_cases ha : pyWS a
    · rw [if_pos ha] at hw
      rcases List.mem_cons.mp hw with h1 | h1
      · subst h1; simp at hc
      · exact ih w h1 c hc
    · rw [if_neg ha] at hw
      cases hi : wordsInner as with
      | nil =>
        rw [hi] at hw
        have h1 : w = [a] := by simpa using hw
        subst h1
        have h2 : c = a := by simpa using hc
        subst h2
        simpa using ha
      | cons v vs =>
        rw [hi] at hw
        rcases List.mem_cons.mp hw with h1 | h1
        · subst h1
          rcases List.mem_cons.mp hc with h2 | h2
          · subst h2; simpa using ha
          · exact ih v (by rw [hi]; exact List.mem_cons_self v vs) c h2
        · exact ih w (by rw [hi]; exact List.mem_cons_of_mem v h1) c hc

theorem wordsInner_word (w : List Char) (hne : w ≠ [])
    (hcs : ∀ c ∈ w, pyWS c = false) : wordsInner w = [w] := by
  induction w with
  | nil => exact absurd rfl hne
  | cons a as ih =>
    rw [wordsInner_cons, if_neg (by simp [hcs a (List.mem_cons_self a as)])]
    by_cases has : as = []
    · subst has
      simp [wordsInner]
    · have hrec : wordsInner as = [as] :=
        ih has (fun c hc => hcs c (List.mem_cons_of_mem a hc))
      rw [hrec]

theorem wordsInner_word_append (w : List Char) (hne : w ≠ [])
    (hcs : ∀ c ∈ w, pyWS c = false) (t : List Char) :
    wordsInner (w ++ ' ' :: t) = w :: wordsInner t := by
  induction w with
  | nil => exact absurd rfl hne
  | cons a as ih =>
    rw [List.cons_append, wordsInner_cons,
        if_neg (by simp [hcs a (List.mem_cons_self a as)])]
    by_cases has : as = []
    · subst has
      rw [List.nil_append]
      rw [show wordsInner (' ' :: t) = [] :: wordsInner t by
        rw [wordsInner_cons, if_pos (by decide)]]
    · have hrec : wordsInner (as ++ ' ' :: t) = as :: wordsInner t :=
        ih has (fun c hc => hcs c (List.mem_cons_of_mem a hc))
      rw [hrec]

theorem pyWordsL_join (ws : List (List Char))
    (h : ∀ w ∈ ws, w ≠ [] ∧ ∀ c ∈ w, pyWS c = false) :
    pyWordsL (joinWordsL ws) = ws := by
  induction ws with
  | nil => rfl
  | cons w rest ih =>
    obtain ⟨hne, hcs⟩ := h w (List.mem_cons_self w rest)
    cases rest with
    | nil =>
      show pyWordsL (w ++ List.foldr _ [] ([] : List (List Char))) = [w]
      simp only [List.foldr_nil, List.append_nil]
      unfold pyWordsL
      rw [wordsInner_word w hne hcs]
      simp [hne]
    | cons v vs =>
      have hjoin : joinWordsL (w :: v :: vs) = w ++ ' ' :: joinWordsL (v :: vs) := by
        show w ++ List.foldr _ [] (v :: vs) = _
        simp only [List.foldr_cons]
        rfl
      rw [hjoin]
      unfold pyWordsL
      rw [wordsInner_word_append w hne hcs]
      have ihr : pyWordsL (joinWordsL (v :: vs)) = v :: vs := by
        refine ih ?_
        intro u hu
        exact h u (List.mem_cons_of_mem w hu)
      unfold pyWordsL at ihr
      simp only [List.filter_cons, hne]
      rw [ihr]
      simp [hne]

theorem pyWordsL_clean (l : List Char) :
    ∀ w ∈ pyWordsL l, w ≠ [] ∧ ∀ c ∈ w, pyWS c = false := by
  intro w hw
  unfold pyWordsL at hw
  have hmem := List.mem_filter.mp hw
  refine ⟨by simpa using hmem.2, ?_⟩
  exact wordsInner_chars l w hmem.1

theorem normalize_whitespace_idem (s : String) :
    normalize_whitespace (normalize_whitespace s) = normalize_whitespace s := by
  unfold normalize_whitespace
  exact congrArg (fun ws => (⟨joinWordsL ws⟩ : String))
    (pyWordsL_join (pyWordsL s.toList) (pyWordsL_clean s.toList))

/-! ### Idempotence of the auto-fixer (claim C3) -/

theorem fixClauseAt_idem (i : Nat) (c : RawClause) :
    fixClauseAt i (fixClauseAt i c) = fixClauseAt i c := by
  unfold fixClauseAt
  simp only [RawClause.mk.injEq]
  refine ⟨?_, ?_, trivial⟩
  · cases ht : c.text with
    | none => rfl
    | some v =>
      cases v with
      | vnone => rfl
      | vint n => rfl
      | vstr s => simp [normalize_whitespace_idem]
  · cases hl : c.label with
    | none => decide
    | some v =>
      cases v with
      | vnone => decide
      | vstr s => simp [pyStr, pyStrip_idem]
      | vint n => simp [pyStr, pyStrip_idem]

theorem enumMapFrom_fixClause_idem (i : Nat) (cs : List RawClause) :
    enumMapFrom fixClauseAt i (enumMapFrom fixClauseAt i cs)
      = enumMapFrom fixClauseAt i cs := by
  induction cs generalizing i with
  | nil => rfl
  | cons c cs ih => simp [enumMapFrom, fixClauseAt_idem, ih]

theorem fixNumberVal_idem (x : Option PyVal) :
    fixNumberVal (fixNumberVal x) = fixNumberVal x := by
  cases x with
  | none => rfl
  | some v =>
    cases v with
    | vnone => rfl
    | vstr s => simp [fixNumberVal, pyStr, pyStrip_idem]
    | vint n => simp [fixNumberVal, pyStr, pyStrip_idem]

theorem fixSection_idem (s t : RawSection) (h : fixSection s = some t) :
    fixSection t = some t := by
  obtain ⟨st, sn, sc⟩ := s
  cases sc with
  | none =>
    simp only [fixSection] at h
    cases h
    simp [fixSection, fixNumberVal_idem]
  | some pc =>
    cases pc with
    | scalar v => simp [fixSection] at h
    | cl cs =>
      simp only [fixSection] at h
      cases h
      simp [fixSection, fixNumberVal_idem, enumMapFrom_fixClause_idem]

theorem enumMapFrom_ne_nil (i : Nat) (c : RawClause) (cs : List RawClause) :
    enumMapFrom fixClauseAt i (c :: cs) ≠ [] := by
  simp [enumMapFrom]

theorem fixSection_truthy (s t : RawSection) (h : fixSection s = some t)
    (ht : clausesTruthy s.clauses = true) : clausesTruthy t.clauses = true := by
  obtain ⟨st, sn, sc⟩ := s
  cases sc with
  | none => simp [clausesTruthy] at ht
  | some pc =>
    cases pc with
    | scalar v => simp [fixSection] at h
    | cl cs =>
      simp only [fixSection] at h
      cases h
      cases cs with
      | nil => simp [clausesTruthy] at ht
      | cons c cs => simp [clausesTruthy, enumMapFrom]

theorem fixSectionList_idem (ss fs : List RawSection)
    (h : fixSectionList ss = some fs) : fixSectionList fs = some fs := by
  induction ss generalizing fs with
  | nil =>
    unfold fixSectionList at h
    cases h
    rfl
  | cons s ss ih =>
    unfold fixSectionList at h
    cases h1 : fixSection s with
    | none => rw [h1] at h; exact absurd h (by simp)
    | some t =>
      rw [h1] at h
      cases h2 : fixSectionList ss with
      | none => rw [h2] at h; exact absurd h (by simp)
      | some ts =>
        rw [h2] at h
        cases h
        unfold fixSectionList
        rw [fixSection_idem s t h1, ih ts h2]

theorem fixSectionList_truthy (ss fs : List RawSection)
    (h : fixSectionList ss = some fs)
    (ht : ∀ s ∈ ss, clausesTruthy s.clauses = true) :
    ∀ t ∈ fs, clausesTruthy t.clauses = true := by
  induction ss generalizing fs with
  | nil =>
    unfold fixSectionList at h
    cases h
    intro t htmem
    simp at htmem
  | cons s ss ih =>
    unfold fixSectionList at h
    cases h1 : fixSection s with
    | none => rw [h1] at h; exact absurd h (by simp)
    | some t =>
      rw [h1] at h
      cases h2 : fixSectionList ss with
      | none => rw [h2] at h; exact absurd h (by simp)
      | some ts =>
        rw [h2] at h
        cases h
        intro u hu
        rcases List.mem_cons.mp hu with hu1 | hu1
        · subst hu1
          exact fixSection_truthy s u h1 (ht s (List.mem_cons_self s ss))
        · exact ih ts h2 (fun v hv => ht v (List.mem_cons_of_mem s hv)) u hu1

theorem fixDateVal_idem (e : Option PyVal) :
    fixDateVal (fixDateVal e) = fixDateVal e := by
  cases e with
  | none => rfl
  | some v =>
    cases v with
    | vnone => rfl
    | vstr s =>
      by_cases h : re_match_iso_dollar (pyStr (PyVal.vstr s)) = true
      · simp [fixDateVal, h]
      · simp only [fixDateVal, if_neg h]
    | vint n =>
      by_cases h : re_match_iso_dollar (pyStr (PyVal.vint n)) = true
      · simp [fixDateVal, h]
      · simp only [fixDateVal, if_neg h]

/-- Core of the idempotence argument: a successful section pass over a
document whose date field is a fixpoint of the date rule yields a document
that both passes reproduce unchanged. -/
theorem cleanSectionsPass_idem (c r : RawContract)
    (hdate : fixDateVal c.effective_date = c.effective_date)
    (h : cleanSectionsPass c = some r) :
    fixEffectiveDate r = r ∧ cleanSectionsPass r = some r := by
  obtain ⟨ct, cc, ce, cs⟩ := c
  simp only at hdate
  cases cs with
  | none =>
    simp only [cleanSectionsPass] at h
    cases h
    constructor
    · simp [fixEffectiveDate, hdate]
    · simp [cleanSectionsPass]
  | some pc =>
    cases pc with
    | scalar v =>
      cases v with
      | vnone => simp [cleanSectionsPass] at h
      | vint n => simp [cleanSectionsPass] at h
      | vstr s =>
        simp only [cleanSectionsPass] at h
        by_cases hempty : s = ""
        · subst hempty
          rw [if_pos rfl] at h
          cases h
          constructor
          · simp [fixEffectiveDate, hdate]
          · simp [cleanSectionsPass, fixSectionList]
        · rw [if_neg hempty] at h
          exact absurd h (by simp)
    | cl ss =>
      simp only [cleanSectionsPass] at h
      cases hf : fixSectionList (ss.filter fun s => clausesTruthy s.clauses) with
      | none => rw [hf] at h; exact absurd h (by simp)
      | some fs =>
        rw [hf] at h
        cases h
        have htruthy : ∀ t ∈ fs, clausesTruthy t.clauses = true := by
          refine fixSectionList_truthy _ _ hf ?_
          intro s hsmem
          exact (List.mem_filter.mp hsmem).2
        have hfilter : fs.filter (fun s => clausesTruthy s.clauses) = fs :=
          List.filter_eq_self.mpr htruthy
        constructor
        · simp [fixEffectiveDate, hdate]
        · simp only [cleanSectionsPass]
          rw [hfilter, fixSectionList_idem _ _ hf]

/-- Claim C3: the auto-fixer is idempotent.  If the first application of
`clean_and_validate_contract` succeeds with result `r`, applying it to `r`
succeeds and returns `r` itself, so `autoFix (autoFix d) = autoFix d` on any
input whose first pass does not raise. -/
theorem clean_and_validate_contract_idempotent (d r : RawContract)
    (h : clean_and_validate_contract d = some r) :
    clean_and_validate_contract r = some r := by
  unfold clean_and_validate_contract at h
  have hdate : fixDateVal (fixEffectiveDate d).effective_date
      = (fixEffectiveDate d).effective_date := by
    show fixDateVal (fixDateVal d.effective_date) = fixDateVal d.effective_date
    exact fixDateVal_idem d.effective_date
  obtain ⟨hr1, hr2⟩ := cleanSectionsPass_idem (fixEffectiveDate d) r hdate h
  unfold clean_and_validate_contract
  rw [hr1, hr2]

/-- Concrete witness for claim C3: a document with a malformed date, an
integer section number, a null label and stray indices is fixed once, and the
theorem applied at that input shows a second pass returns the fixed value. -/
theorem clean_and_validate_contract_idempotent_witness :
    clean_and_validate_contract
      ⟨some (.vstr "T"), some (.vstr "X"), some .vnone,
        some (.cl [⟨none, some (.vstr "1"),
          some (.cl [⟨some (.vstr "a b"), some (.vstr ""), some (.vint 0)⟩])⟩])⟩
      = some
      ⟨some (.vstr "T"), some (.vstr "X"), some .vnone,
        some (.cl [⟨none, some (.vstr "1"),
          some (.cl [⟨some (.vstr "a b"), some (.vstr ""), some (.vint 0)⟩])⟩])⟩ :=
  clean_and_validate_contract_idempotent
    ⟨some (.vstr "T"), some (.vstr "X"), some (.vstr "bad"),
      some (.cl [⟨none, some (.vint 1),
        some (.cl [⟨some (.vstr " a  b "), none, some (.vstr "z")⟩])⟩])⟩
    ⟨some (.vstr "T"), some (.vstr "X"), some .vnone,
      some (.cl [⟨none, some (.vstr "1"),
        some (.cl [⟨some (.vstr "a b"), some (.vstr ""), some (.vint 0)⟩])⟩])⟩
    (by decide)

/-! ### Output assembler `assemble_output_json` -/

/-- Clause dictionary as consumed by `assemble_output_json`: `text` and
`label` may be absent, `None`, or a string (the values on which the Python
code does not raise); `index` may hold anything — it is never read. -/
structure AsmClause where
  text : Option (Option String)
  label : Option (Option String)
  index : Option PyVal
deriving DecidableEq, Repr

/-- Section dictionary as consumed by `assemble_output_json`. -/
structure AsmSection where
  title : Option (Option String)
  number : Option PyVal
  clauses : Option (List AsmClause)
deriving DecidableEq, Repr

/-- Output clause of the assembler (all fields in canonical shape). -/
structure OutClause where
  text : String
  label : String
  index : Nat
deriving DecidableEq, Repr

/-- Output section of the assembler. -/
structure OutSection where
  title : String
  number : Option String
  clauses : List OutClause
deriving DecidableEq, Repr

/-- Output document of the assembler. -/
structure OutDoc where
  title : String
  contract_type : String
  effective_date : Option String
  sections : List OutSection
deriving DecidableEq, Repr

/-- Clause body of the assembler loop: `text = normalize(cl.get("text",""))`
(where `normalize_whitespace` maps a `None` argument to `""`), label defaults
for absent or null values, and `index` is the enumeration position. -/
def assembleClause (idx : Nat) (c : AsmClause) : OutClause :=
  let text := normalize_whitespace ((c.text.getD (some "")).getD "")
  let label := normalize_whitespace ((c.label.getD (some "")).getD "")
  { text := text
    label := if label = "" then "" else label
    index := idx }

/-- Section body of the assembler loop: normalized title (absent or null
becomes `""`), `str(number).strip() or None` for non-null numbers, and the
re-enumerated clause list (absent `clauses` iterates the default `[]`). -/
def assembleSection (sec : AsmSection) : OutSection :=
  { title := normalize_whitespace ((sec.title.getD (some "")).getD "")
    number :=
      match sec.number with
      | none => none
      | some .vnone => none
      | some v =>
        if pyStrip (pyStr v) = "" then none else some (pyStrip (pyStr v))
    clauses := enumMapFrom assembleClause 0 (sec.clauses.getD []) }

/-- Source `assemble_output_json`: canonicalizes every field and rebuilds
clause indices; it emits one output section per input section. -/
def assemble_output_json (title : String) (contract_type : String)
    (effective_date : Option String) (sections : List AsmSection) : OutDoc :=
  { title := if title = "" then "" else normalize_whitespace title
    contract_type := if contract_type = "" then "" else normalize_whitespace contract_type
    effective_date := effective_date
    sections := sections.map assembleSection }

/-- Sections list of a raw contract (empty for an absent or non-list value),
used to state properties of the auto-fixer output. -/
def sectionsListOf (c : RawContract) : List RawSection :=
  match c.sections with
  | some (.cl ss) => ss
  | _ => []

/-! ### Claim C1: clause indices are exactly 0..n-1 in both outputs -/

theorem enumMapFrom_assembleClause_index (i : Nat) (cs : List AsmClause) :
    (enumMapFrom assembleClause i cs).map (fun c => c.index) = List.range' i cs.length := by
  induction cs generalizing i with
  | nil => rfl
  | cons c cs ih =>
    show (assembleClause i c).index
        :: (enumMapFrom assembleClause (i + 1) cs).map (fun c => c.index)
      = i :: List.range' (i + 1) cs.length
    rw [ih (i + 1)]
    rfl

theorem enumMapFrom_fixClause_index (i : Nat) (cs : List RawClause) :
    (enumMapFrom fixClauseAt i cs).map (fun c => c.index)
      = (List.range' i cs.length).map (fun j => some (PyVal.vint (j : Int))) := by
  induction cs generalizing i with
  | nil => rfl
  | cons c cs ih =>
    show (fixClauseAt i c).index
        :: (enumMapFrom fixClauseAt (i + 1) cs).map (fun c => c.index)
      = some (PyVal.vint (i : Int))
        :: (List.range' (i + 1) cs.length).map (fun j => some (PyVal.vint (j : Int)))
    rw [ih (i + 1)]
    rfl

theorem enumMapFrom_length {α β : Type} (f : Nat → α → β) (i : Nat) (l : List α) :
    (enumMapFrom f i l).length = l.length := by
  induction l generalizing i with
  | nil => rfl
  | cons a as ih => simp [enumMapFrom, ih]

theorem fixSection_clauses_shape (s t : RawSection) (h : fixSection s = some t) :
    t.clauses = none ∨
      ∃ cs, s.clauses = some (.cl cs) ∧
        t.clauses = some (.cl (enumMapFrom fixClauseAt 0 cs)) := by
  obtain ⟨st, sn, sc⟩ := s
  cases sc with
  | none =>
    simp only [fixSection] at h
    cases h
    exact Or.inl rfl
  | some pc =>
    cases pc with
    | scalar v => simp [fixSection] at h
    | cl cs =>
      simp only [fixSection] at h
      cases h
      exact Or.inr ⟨cs, rfl, rfl⟩

theorem fixSectionList_mem (ss fs : List RawSection)
    (h : fixSectionList ss = some fs) :
    ∀ t ∈ fs, ∃ s ∈ ss, fixSection s = some t := by
  induction ss generalizing fs with
  | nil =>
    unfold fixSectionList at h
    cases h
    intro t ht
    simp at ht
  | cons s ss ih =>
    unfold fixSectionList at h
    cases h1 : fixSection s with
    | none => rw [h1] at h; exact absurd h (by simp)
    | some t =>
      rw [h1] at h
      cases h2 : fixSectionList ss with
      | none => rw [h2] at h; exact absurd h (by simp)
      | some ts =>
        rw [h2] at h
        cases h
        intro u hu
        rcases List.mem_cons.mp hu with hu1 | hu1
        · exact ⟨s, List.mem_cons_self s ss, hu1 ▸ h1⟩
        · obtain ⟨s', hs', hfix⟩ := ih ts h2 u hu1
          exact ⟨s', List.mem_cons_of_mem s hs', hfix⟩

theorem clean_sections_from_fixSectionList (d r : RawContract)
    (h : clean_and_validate_contract d = some r) :
    ∀ t ∈ sectionsListOf r, ∃ s, fixSection s = some t ∧ clausesTruthy s.clauses = true := by
  unfold clean_and_validate_contract at h
  revert h
  generalize fixEffectiveDate d = c
  intro h
  obtain ⟨ct, cc, ce, cs⟩ := c
  cases cs with
  | none =>
    simp only [cleanSectionsPass] at h
    cases h
    intro t ht
    simp [sectionsListOf] at ht
  | some pc =>
    cases pc with
    | scalar v =>
      cases v with
      | vnone => simp [cleanSectionsPass] at h
      | vint n => simp [cleanSectionsPass] at h
      | vstr s =>
        simp only [cleanSectionsPass] at h
        by_cases hempty : s = ""
        · subst hempty
          rw [if_pos rfl] at h
          cases h
          intro t ht
          simp [sectionsListOf] at ht
        · rw [if_neg hempty] at h
          exact absurd h (by simp)
    | cl ss =>
      simp only [cleanSectionsPass] at h
      cases hf : fixSectionList (ss.filter fun s => clausesTruthy s.clauses) with
      | none => rw [hf] at h; exact absurd h (by simp)
      | some fs =>
        rw [hf] at h
        cases h
        intro t ht
        have ht' : t ∈ fs := by simpa [sectionsListOf] using ht
        obtain ⟨s, hsmem, hfix⟩ := fixSectionList_mem _ _ hf t ht'
        exact ⟨s, hfix, (List.mem_filter.mp hsmem).2⟩

/-- Claim C1: in every document produced by the assembler and in every
document produced by a successful auto-fix, each section's clause `index`
fields are exactly `0, 1, ..., n-1` in array order, whatever index values the
input carried. -/
theorem clause_indices_are_positions :
    (∀ (title contract_type : String) (effective_date : Option String)
        (ss : List AsmSection),
      ∀ sec ∈ (assemble_output_json title contract_type effective_date ss).sections,
        sec.clauses.map (fun c => c.index) = List.range sec.clauses.length) ∧
    (∀ d r : RawContract, clean_and_validate_contract d = some r →
      ∀ sec ∈ sectionsListOf r, ∀ cs, sec.clauses = some (.cl cs) →
        cs.map (fun c => c.index)
          = (List.range cs.length).map (fun j => some (PyVal.vint (j : Int)))) := by
  constructor
  · intro title contract_type effective_date ss sec hsec
    obtain ⟨s, _, rfl⟩ := List.mem_map.mp hsec
    show (enumMapFrom assembleClause 0 (s.clauses.getD [])).map (fun c => c.index)
        = List.range (enumMapFrom assembleClause 0 (s.clauses.getD [])).length
    rw [enumMapFrom_assembleClause_index, enumMapFrom_length, List.range_eq_range']
  · intro d r h sec hsec cs hcs
    obtain ⟨s, hfix, _⟩ := clean_sections_from_fixSectionList d r h sec hsec
    rcases fixSection_clauses_shape s sec hfix with hnone | ⟨cs0, _, hshape⟩
    · rw [hnone] at hcs; exact absurd hcs (by simp)
    · rw [hshape] at hcs
      injection hcs with hcs
      injection hcs with hcs
      subst hcs
      rw [enumMapFrom_fixClause_index, enumMapFrom_length, List.range_eq_range']

/-- Sample assembler input section with stray clause index values. -/
def sampleAsmSection : AsmSection :=
  ⟨some (some "S"), none,
    some [⟨some (some "x"), some none, some (.vint 9)⟩,
          ⟨some (some "y"), none, none⟩]⟩

/-- Sample auto-fix input clauses with junk index values. -/
def sampleRawClauses : List RawClause :=
  [⟨some (.vstr "t"), some (.vstr ""), some (.vint 7)⟩,
   ⟨some (.vstr "u"), some (.vstr ""), none⟩]

/-- Sample auto-fix input document wrapping `sampleRawClauses`. -/
def sampleRawDoc : RawContract :=
  ⟨some (.vstr "T"), some (.vstr "C"), none,
    some (.cl [⟨some (.vstr "S"), none, some (.cl sampleRawClauses)⟩])⟩

/-- Clause list of `sampleRawDoc` after auto-fix. -/
def sampleFixedClauses : List RawClause :=
  [⟨some (.vstr "t"), some (.vstr ""), some (.vint 0)⟩,
   ⟨some (.vstr "u"), some (.vstr ""), some (.vint 1)⟩]

/-- Document value of `sampleRawDoc` after auto-fix. -/
def sampleFixedDoc : RawContract :=
  ⟨some (.vstr "T"), some (.vstr "C"), none,
    some (.cl [⟨some (.vstr "S"), none, some (.cl sampleFixedClauses)⟩])⟩

/-- Concrete witness for claim C1 at both components: an assembler input
section and an auto-fix input whose clause indices are junk; in both outputs
the indices come out as array positions. -/
theorem clause_indices_are_positions_witness :
    ((assembleSection sampleAsmSection).clauses.map (fun c => c.index)
      = List.range (assembleSection sampleAsmSection).clauses.length) ∧
    (sampleFixedClauses.map (fun c => c.index)
      = (List.range sampleFixedClauses.length).map
          (fun j => some (PyVal.vint (j : Int)))) := by
  obtain ⟨hA, hB⟩ := clause_indices_are_positions
  constructor
  · exact hA "T" "C" none [sampleAsmSection] (assembleSection sampleAsmSection)
      (by simp [assemble_output_json])
  · exact hB sampleRawDoc sampleFixedDoc (by decide)
      ⟨some (.vstr "S"), none, some (.cl sampleFixedClauses)⟩ (by decide)
      sampleFixedClauses rfl

/-! ### Claim C2: empty-clause sections in the outputs -/

/-- Counterexample to claim C2 as stated: the assembler does not drop
sections; an input section whose `clauses` list is empty is emitted with an
empty `clauses` array, so such sections can appear in `assemble` output. -/
theorem assemble_emits_empty_clause_section :
    ((assemble_output_json "T" "C" none
        [⟨some (some "S"), none, some []⟩]).sections.any
      (fun s => s.clauses.isEmpty)) = true := by decide

theorem fixSection_nonempty (s t : RawSection) (h : fixSection s = some t)
    (ht : clausesTruthy s.clauses = true) :
    ∃ c cs, t.clauses = some (PyColl.cl (c :: cs)) := by
  obtain ⟨st, sn, sc⟩ := s
  cases sc with
  | none => simp [clausesTruthy] at ht
  | some pc =>
    cases pc with
    | scalar v => simp [fixSection] at h
    | cl cs =>
      cases cs with
      | nil => simp [clausesTruthy] at ht
      | cons c cs =>
        simp only [fixSection] at h
        cases h
        exact ⟨fixClauseAt 0 c, enumMapFrom fixClauseAt 1 cs, rfl⟩

/-- Claim C2 as amended: the assembler never drops sections (it emits one
output section per input section, empty-clause ones included); only the
auto-fixer guarantees that every section in its output has a non-empty
clause list. -/
theorem empty_sections_amended :
    (∀ (title contract_type : String) (effective_date : Option String)
        (ss : List AsmSection),
      (assemble_output_json title contract_type effective_date ss).sections.length
        = ss.length) ∧
    (∀ d r : RawContract, clean_and_validate_contract d = some r →
      ∀ sec ∈ sectionsListOf r, ∃ c cs, sec.clauses = some (PyColl.cl (c :: cs))) := by
  constructor
  · intro title contract_type effective_date ss
    exact List.length_map ss assembleSection
  · intro d r h sec hsec
    obtain ⟨s, hfix, htruthy⟩ := clean_sections_from_fixSectionList d r h sec hsec
    exact fixSection_nonempty s sec hfix htruthy

/-- Concrete witness for the amended claim C2: the assembler output keeps the
single input section, and the fixed sample section has a non-empty clause
list. -/
theorem empty_sections_amended_witness :
    ((assemble_output_json "T" "C" none [sampleAsmSection]).sections.length = 1) ∧
    ((⟨some (.vstr "S"), none, some (.cl sampleFixedClauses)⟩ : RawSection).clauses
      ≠ some (PyColl.cl [])) := by
  obtain ⟨hA, hB⟩ := empty_sections_amended
  refine ⟨hA "T" "C" none [sampleAsmSection], ?_⟩
  obtain ⟨c, cs, hshape⟩ := hB sampleRawDoc sampleFixedDoc (by decide)
      ⟨some (.vstr "S"), none, some (.cl sampleFixedClauses)⟩ (by decide)
  rw [hshape]
  simp

/-! ### Claim C6: the newline-date gap between auto-fix and the validator -/

/-- Document whose only schema defect is a non-ISO effective date: an ISO
date followed by a trailing newline. -/
def newlineDateDoc : RawContract :=
  ⟨some (.vstr "Contract"), some (.vstr "Agreement"),
    some (.vstr "2024-01-05\n"),
    some (.cl [⟨some (.vstr "S"), none,
      some (.cl [⟨some (.vstr "text"), some (.vstr ""), some (.vint 0)⟩])⟩])⟩

/-- Same document with a month-name effective date (also non-ISO). -/
def monthNameDateDoc : RawContract :=
  ⟨some (.vstr "Contract"), some (.vstr "Agreement"),
    some (.vstr "June 1, 2024"),
    some (.cl [⟨some (.vstr "S"), none,
      some (.cl [⟨some (.vstr "text"), some (.vstr ""), some (.vint 0)⟩])⟩])⟩

/-- Claim C6 fails on the code: `"2024-01-05\n"` is a non-ISO date (the
strict validator's `re.fullmatch` rejects it), yet auto-fix keeps it because
its `re.match(r'^\d{4}-\d{2}-\d{2}$', ...)` check tolerates the trailing
newline, so `validate (autoFix d)` is `false` for a document whose only
defect is a non-ISO effective date.  The same document with any other
non-ISO date is nulled by auto-fix and then validates. -/
theorem newline_date_autofix_validation_gap :
    (re_fullmatch_iso "2024-01-05\n" = false) ∧
    (clean_and_validate_contract newlineDateDoc = some newlineDateDoc) ∧
    (is_valid_against_pydantic_like_rules newlineDateDoc = false) ∧
    (clean_and_validate_contract monthNameDateDoc
      = some { monthNameDateDoc with effective_date := some .vnone }) ∧
    (is_valid_against_pydantic_like_rules
      { monthNameDateDoc with effective_date := some .vnone } = true) := by
  refine ⟨by decide, by decide, by decide, by decide, by decide⟩

/-! ### Claim C9: frame effect of the auto-fixer -/

/-- Per-clause preservation facts for the auto-fix loop: an already-stripped
string label survives unchanged, already-normalized string text survives
unchanged, and non-string text values are never touched. -/
def clausePreserved (a b : RawClause) : Prop :=
  (∀ s, a.label = some (PyVal.vstr s) → pyStrip s = s → b.label = a.label) ∧
  (∀ s, a.text = some (PyVal.vstr s) → normalize_whitespace s = s → b.text = a.text) ∧
  ((∀ s, a.text ≠ some (PyVal.vstr s)) → b.text = a.text)

/-- Per-section preservation facts: the title value is kept verbatim and the
clause list keeps its count and order, with per-clause preservation. -/
def sectionPreserved (a b : RawSection) : Prop :=
  b.title = a.title ∧
  ∀ ca, a.clauses = some (PyColl.cl ca) →
    ∃ cb, b.clauses = some (PyColl.cl cb) ∧ List.Forall₂ clausePreserved ca cb

theorem clausePreserved_fixClauseAt (i : Nat) (a : RawClause) :
    clausePreserved a (fixClauseAt i a) := by
  refine ⟨?_, ?_, ?_⟩
  · intro s hs hstrip
    simp [fixClauseAt, hs, pyStr, hstrip]
  · intro s hs hnorm
    simp [fixClauseAt, hs, hnorm]
  · intro hnot
    cases ht : a.text with
    | none => simp [fixClauseAt, ht]
    | some v =>
      cases v with
      | vstr s => exact absurd ht (hnot s)
      | vnone => simp [fixClauseAt, ht]
      | vint n => simp [fixClauseAt, ht]

theorem forall2_enumMapFrom_clausePreserved (i : Nat) (cs : List RawClause) :
    List.Forall₂ clausePreserved cs (enumMapFrom fixClauseAt i cs) := by
  induction cs generalizing i with
  | nil => exact List.Forall₂.nil
  | cons c cs ih =>
    exact List.Forall₂.cons (clausePreserved_fixClauseAt i c) (ih (i + 1))

theorem sectionPreserved_fixSection (s t : RawSection) (h : fixSection s = some t) :
    sectionPreserved s t := by
  obtain ⟨st, sn, sc⟩ := s
  cases sc with
  | none =>
    simp only [fixSection] at h
    cases h
    refine ⟨rfl, ?_⟩
    intro ca hca
    simp at hca
  | some pc =>
    cases pc with
    | scalar v => simp [fixSection] at h
    | cl cs =>
      simp only [fixSection] at h
      cases h
      refine ⟨rfl, ?_⟩
      intro ca hca
      have hca' : cs = ca := by simpa using hca
      subst hca'
      exact ⟨enumMapFrom fixClauseAt 0 cs, rfl,
        forall2_enumMapFrom_clausePreserved 0 cs⟩

theorem forall2_fixSectionList (ss fs : List RawSection)
    (h : fixSectionList ss = some fs) : List.Forall₂ sectionPreserved ss fs := by
  induction ss generalizing fs with
  | nil =>
    unfold fixSectionList at h
    cases h
    exact List.Forall₂.nil
  | cons s ss ih =>
    unfold fixSectionList at h
    cases h1 : fixSection s with
    | none => rw [h1] at h; exact absurd h (by simp)
    | some t =>
      rw [h1] at h
      cases h2 : fixSectionList ss with
      | none => rw [h2] at h; exact absurd h (by simp)
      | some ts =>
        rw [h2] at h
        cases h
        exact List.Forall₂.cons (sectionPreserved_fixSection s t h1) (ih ts h2)

theorem cleanSectionsPass_frame (c r : RawContract) (h : cleanSectionsPass c = some r) :
    r.title = c.title ∧ r.contract_type = c.contract_type ∧
    (c.sections = none → r.sections = none) ∧
    ∀ ss, c.sections = some (PyColl.cl ss) →
      ∃ rs, r.sections = some (PyColl.cl rs) ∧
        List.Forall₂ sectionPreserved (ss.filter fun s => clausesTruthy s.clauses) rs := by
  obtain ⟨ct, cc, ce, cs⟩ := c
  cases cs with
  | none =>
    simp only [cleanSectionsPass] at h
    cases h
    refine ⟨rfl, rfl, fun _ => rfl, ?_⟩
    intro ss hss
    simp at hss
  | some pc =>
    cases pc with
    | scalar v =>
      cases v with
      | vnone => simp [cleanSectionsPass] at h
      | vint n => simp [cleanSectionsPass] at h
      | vstr s =>
        simp only [cleanSectionsPass] at h
        by_cases hempty : s = ""
        · subst hempty
          rw [if_pos rfl] at h
          cases h
          refine ⟨rfl, rfl, ?_, ?_⟩
          · intro hnone; simp at hnone
          · intro ss hss; simp at hss
        · rw [if_neg hempty] at h
          exact absurd h (by simp)
    | cl ss =>
      simp only [cleanSectionsPass] at h
      cases hf : fixSectionList (ss.filter fun s => clausesTruthy s.clauses) with
      | none => rw [hf] at h; exact absurd h (by simp)
      | some fs =>
        rw [hf] at h
        cases h
        refine ⟨rfl, rfl, ?_, ?_⟩
        · intro hnone; simp at hnone
        · intro ss' hss'
          have hss'' : ss = ss' := by simpa using hss'
          subst hss''
          exact ⟨fs, rfl, forall2_fixSectionList _ _ hf⟩

/-- Claim C9: the auto-fixer leaves everything it does not repair unchanged.
On a successful pass, `title` and `contract_type` are returned verbatim, an
absent `sections` key stays absent, and the output sections are exactly the
input sections with truthy clause lists — in their original relative order
(the retained list is a sublist of the input), each keeping its title value,
its clause count and clause order, and each clause keeping an
already-stripped string label, already-normalized string text, and any
non-string text value. -/
theorem autofix_frame_effect (d r : RawContract)
    (h : clean_and_validate_contract d = some r) :
    r.title = d.title ∧ r.contract_type = d.contract_type ∧
    (d.sections = none → r.sections = none) ∧
    ∀ ss, d.sections = some (PyColl.cl ss) →
      ∃ rs, r.sections = some (PyColl.cl rs) ∧
        (ss.filter fun s => clausesTruthy s.clauses).Sublist ss ∧
        List.Forall₂ sectionPreserved (ss.filter fun s => clausesTruthy s.clauses) rs := by
  unfold clean_and_validate_contract at h
  have hframe := cleanSectionsPass_frame (fixEffectiveDate d) r h
  refine ⟨hframe.1, hframe.2.1, hframe.2.2.1, ?_⟩
  intro ss hss
  obtain ⟨rs, hrs, hf2⟩ := hframe.2.2.2 ss hss
  exact ⟨rs, hrs, List.filter_sublist ss, hf2⟩

/-- Concrete witness for claim C9 at the sample document: the fixed document
keeps the original title and contract type. -/
theorem autofix_frame_effect_witness :
    sampleFixedDoc.title = sampleRawDoc.title ∧
    sampleFixedDoc.contract_type = sampleRawDoc.contract_type := by
  obtain ⟨h1, h2, _, _⟩ := autofix_frame_effect sampleRawDoc sampleFixedDoc (by decide)
  exact ⟨h1, h2⟩

/-! ### Character classes and small matchers for the rule-based parsers -/

/-- Python regex `\w` on ASCII text. -/
def pyWordChar (c : Char) : Bool :=
  c.isAlpha || c.isDigit || c = '_'

/-- Characters of the class `[IVXLCDM]` under `re.IGNORECASE`. -/
def romanChar (c : Char) : Bool :=
  c = 'I' || c = 'V' || c = 'X' || c = 'L' || c = 'C' || c = 'D' || c = 'M' ||
  c = 'i' || c = 'v' || c = 'x' || c = 'l' || c = 'c' || c = 'd' || c = 'm'

/-- Case-insensitive literal match at the head of `s`: returns the consumed
characters (original case) and the remainder. -/
def matchLitCI : List Char → List Char → Option (List Char × List Char)
  | [], s => some ([], s)
  | _ :: _, [] => none
  | p :: ps, c :: cs =>
    if c.toLower = p.toLower then
      match matchLitCI ps cs with
      | some (consumed, rest) => some (c :: consumed, rest)
      | none => none
    else none

/-- First `some` value of `f` over a list (Python regex alternation order). -/
def firstSome {α β : Type} (f : α → Option β) : List α → Option β
  | [] => none
  | a :: as =>
    match f a with
    | some b => some b
    | none => firstSome f as

/-- Maximal runs of `\w` characters (used to decide `\b`-delimited word
matches: a single word matches somewhere in a string with boundaries on both
sides exactly when some maximal word run equals it). -/
def wordRunsInner (l : List Char) : List (List Char) :=
  l.foldr
    (fun c acc =>
      if !pyWordChar c then [] :: acc
      else
        match acc with
        | [] => [[c]]
        | w :: ws => (c :: w) :: ws)
    []

/-- Maximal word runs of a string. -/
def wordRuns (l : List Char) : List (List Char) :=
  (wordRunsInner l).filter (fun w => !w.isEmpty)

/-- Expansion of the `VERBISH_RE` alternation in `rules_parser.py` (each
element is one word the regex can match between `\b` anchors). -/
def verbWordsBase : List String :=
  ["shall", "may", "agree", "agrees", "use", "apply", "permit", "terminate",
   "mean", "means", "include", "includes", "specify", "specifies", "located",
   "notified", "submit", "submitted", "approve", "approved", "distribute",
   "market", "sell", "provide", "deliver", "perform"]

/-- Expansion of the `VERBISH_LOCAL` alternation inside `segment_sections`
(the base verbs plus the locally added ones). -/
def verbWordsLocal : List String :=
  verbWordsBase ++
  ["reimburse", "incurred", "participate", "participating", "subject",
   "reserved", "understand", "understands", "delivery"]

/-- Search for any `\b`-delimited verb of `verbs` (case-insensitive): some
maximal word run, lower-cased, is in the list. -/
def hasVerbCue (verbs : List String) (l : List Char) : Bool :=
  (wordRuns l).any (fun w => verbs.contains (⟨w.map Char.toLower⟩ : String))

/-- Word-boundary check for the position before a match. -/
def boundaryOk : Option Char → Bool
  | none => true
  | some c => !pyWordChar c

/-- Case-insensitive phrase match at this position with `\b` on both sides
(the phrase starts and ends with word characters). -/
def phraseAtWithBoundaries (phrase : List Char) (prev : Option Char) (l : List Char) : Bool :=
  boundaryOk prev &&
  (match matchLitCI phrase l with
   | none => false
   | some (_, rest) =>
     match rest.head? with
     | none => true
     | some c => !pyWordChar c)

/-- Scan of `re.search` for a single `\b phrase \b`, carrying the previous
character for the left boundary. -/
def searchWordBoundedPhrase (phrase : List Char) : Option Char → List Char → Bool
  | prev, [] => phraseAtWithBoundaries phrase prev []
  | prev, c :: cs =>
    phraseAtWithBoundaries phrase prev (c :: cs) ||
      searchWordBoundedPhrase phrase (some c) cs

/-! ### Simple detectors of `rules_parser.py` -/

/-- Characters of `[A-Z0-9.\-]` under `re.IGNORECASE`. -/
def exhibitTailChar (c : Char) : Bool :=
  c.isAlpha || c.isDigit || c = '.' || c = '-'

/-- Source `is_exhibit_header`: `EXHIBIT_HEADER_RE.match(line.strip())` with
pattern `^\s*(EXHIBIT|SCHEDULE|ANNEX)\s+[A-Z0-9.\-]+` (ignore-case, prefix
match; the three keywords start with distinct letters so alternation order
cannot matter). -/
def is_exhibit_header (line : String) : Bool :=
  let l := (pyStripL line.toList).dropWhile pyWS
  match firstSome (fun kw => matchLitCI kw l)
      ["EXHIBIT".toList, "SCHEDULE".toList, "ANNEX".toList] with
  | none => false
  | some (_, rest) =>
    !(rest.takeWhile pyWS).isEmpty &&
      !((rest.dropWhile pyWS).takeWhile exhibitTailChar).isEmpty

/-- Source `is_page_marker`: `^\s*-?\s*\d+\s*-?\s*$` on the stripped line
(each optional dash is taken when present — skipping it could never let the
digit part match, so the greedy parse is exact). -/
def is_page_marker (line : String) : Bool :=
  let l0 := (pyStripL line.toList).dropWhile pyWS
  let l1 := if l0.head? = some '-' then l0.tail else l0
  let l2 := l1.dropWhile pyWS
  let digits := l2.takeWhile Char.isDigit
  let l3 := (l2.dropWhile Char.isDigit).dropWhile pyWS
  let l4 := if l3.head? = some '-' then l3.tail else l3
  !digits.isEmpty && (l4.dropWhile pyWS).isEmpty

/-- Source `looks_like_title`: stripped line longer than 3 characters, equal
to its own upper-casing, with no terminal period, at most 120 characters. -/
def looks_like_title (line : String) : Bool :=
  let up := pyStripL line.toList
  decide (3 < up.length) && (up.map Char.toUpper == up) &&
    !(up.getLast? == some '.') && decide (up.length ≤ 120)

/-- Source `is_titleish_header`.  The float comparisons `ratio >= 0.8` are
replaced by the exact integer comparisons `5 * count ≥ 4 * total`, which
agree with the Python float arithmetic for every total up to the 120-char
line bound. -/
def is_titleish_header (text : String) : Bool :=
  let t := pyStripL text.toList
  if t.isEmpty || decide (120 < t.length) then false
  else if hasVerbCue verbWordsBase t then false
  else
    let words := pyWordsL t
    if decide (words.length < 2) then false
    else
      let letters := t.filter Char.isAlpha
      if decide (4 ≤ letters.length) &&
          decide (4 * letters.length ≤ 5 * (letters.filter Char.isUpper).length) then
        true
      else
        let titled := (words.filter (fun w =>
          match w.head? with
          | some c => c.isUpper
          | none => false)).length
        decide (4 * max 1 words.length ≤ 5 * titled)

/-- Python `int(...)` on a string: optional surrounding whitespace, optional
sign, then at least one digit (digit-group underscores are not modelled). -/
def digitsToNat (l : List Char) : Nat :=
  l.foldl (fun acc c => acc * 10 + (c.toNat - '0'.toNat)) 0

/-- Python `int(s)` returning `none` where Python raises `ValueError`. -/
def pyInt (s : String) : Option Int :=
  let l := pyStripL s.toList
  let signAndRest : Int × List Char :=
    match l with
    | '+' :: r => (1, r)
    | '-' :: r => (-1, r)
    | r => (1, r)
  if !signAndRest.2.isEmpty && signAndRest.2.all Char.isDigit then
    some (signAndRest.1 * (digitsToNat signAndRest.2 : Int))
  else none

/-- Source `is_small_integer_token`: `0 < int(tok) < 100`, `False` when
`int` raises. -/
def is_small_integer_token (tok : String) : Bool :=
  match pyInt tok with
  | some n => decide (0 < n) && decide (n < 100)
  | none => false

/-- Python `str.isdigit` on ASCII text. -/
def pyIsDigitStr (s : String) : Bool :=
  !s.toList.isEmpty && s.toList.all Char.isDigit

/-- Source `looks_valid_section_title`: rejects lines matching
`^Page\s+\d+\s*$` (ignore-case). -/
def pageLineMatch (line : String) : Bool :=
  match matchLitCI "Page".toList line.toList with
  | none => false
  | some (_, rest) =>
    let ws := rest.takeWhile pyWS
    let r2 := rest.dropWhile pyWS
    !ws.isEmpty && !(r2.takeWhile Char.isDigit).isEmpty &&
      ((r2.dropWhile Char.isDigit).dropWhile pyWS).isEmpty

/-- Source `looks_valid_section_title`. -/
def looks_valid_section_title (line : String) : Bool :=
  !pageLineMatch line

/-- Source `normalize_section_number`: strip a non-null number. -/
def normalize_section_number : Option String → Option String
  | none => none
  | some s => some (pyStrip s)

/-! ### Numbering-token alternations of the header and clause regexes -/

theorem length_dropWhile_le {α : Type} (p : α → Bool) (l : List α) :
    (l.dropWhile p).length ≤ l.length := by
  induction l with
  | nil => simp
  | cons a as ih =>
    rw [List.dropWhile_cons]
    by_cases h : p a
    · rw [if_pos h]; exact Nat.le_succ_of_le ih
    · rw [if_neg h]

/-- Parse of one `\.\d+` group. -/
def dotNumOne : List Char → Option (List Char × List Char)
  | '.' :: cs =>
    let ds := cs.takeWhile Char.isDigit
    if ds.isEmpty then none else some ('.' :: ds, cs.dropWhile Char.isDigit)
  | _ => none

/-- Fuel-bounded maximal-munch parse of `(?:\.\d+)+` groups (zero or
more); every group consumes at least two characters, so fuel equal to the
input length always suffices. -/
def dotNumGroupsB : Nat → List Char → (List Char × List Char)
  | 0, l => ([], l)
  | Nat.succ n, l =>
    match dotNumOne l with
    | none => ([], l)
    | some (g, rest) =>
      let p := dotNumGroupsB n rest
      (g ++ p.1, p.2)

/-- Maximal-munch parse of `(?:\.\d+)+` groups (zero or more). -/
def dotNumGroups (l : List Char) : List Char × List Char :=
  dotNumGroupsB l.length l

/-- Alternative `\d+(?:\.\d+)+`.  Because every alternative must be followed
by whitespace, the maximal-munch parse is exactly the backtracking result. -/
def headerAltA (l : List Char) : Option (List Char × List Char) :=
  let d1 := l.takeWhile Char.isDigit
  if d1.isEmpty then none
  else
    let p := dotNumGroups (l.dropWhile Char.isDigit)
    if p.1.isEmpty then none else some (d1 ++ p.1, p.2)

/-- Alternative `\d+[.)]`. -/
def headerAltB (l : List Char) : Option (List Char × List Char) :=
  let d1 := l.takeWhile Char.isDigit
  if d1.isEmpty then none
  else
    match l.dropWhile Char.isDigit with
    | c :: rest => if c = '.' || c = ')' then some (d1 ++ [c], rest) else none
    | [] => none

/-- Alternative `[IVXLCDM]+[.)]` (ignore-case). -/
def headerAltC (l : List Char) : Option (List Char × List Char) :=
  let r1 := l.takeWhile romanChar
  if r1.isEmpty then none
  else
    match l.dropWhile romanChar with
    | c :: rest => if c = '.' || c = ')' then some (r1 ++ [c], rest) else none
    | [] => none

/-- Alternative `[A-Za-z][.)]`. -/
def headerAltD (l : List Char) : Option (List Char × List Char) :=
  match l with
  | a :: c :: rest =>
    if a.isAlpha && (c = '.' || c = ')') then some ([a, c], rest) else none
  | _ => none

/-- Alternative `(?:\d+)(?=\s+[A-Z][A-Za-z])`: a bare integer with a
lookahead for whitespace and a two-letter word start.  The regex is
compiled with `re.IGNORECASE`, so `[A-Z]` accepts lowercase letters as
well. -/
def headerAltE (l : List Char) : Option (List Char × List Char) :=
  let d1 := l.takeWhile Char.isDigit
  if d1.isEmpty then none
  else
    let rest := l.dropWhile Char.isDigit
    match rest.dropWhile pyWS with
    | c1 :: c2 :: _ =>
      if !(rest.takeWhile pyWS).isEmpty && c1.isAlpha && c2.isAlpha then
        some (d1, rest)
      else none
    | _ => none

/-- Alternative `\((?:\d+|[a-z]|[ivxlcdm]+)\)` of the clause regex
(ignore-case, so the single-letter branch accepts any letter). -/
def parenLabelAlt (l : List Char) : Option (List Char × List Char) :=
  match l with
  | '(' :: cs =>
    (let ds := cs.takeWhile Char.isDigit
     if ds.isEmpty then none
     else
       match cs.dropWhile Char.isDigit with
       | ')' :: rest => some ('(' :: (ds ++ [')']), rest)
       | _ => none) <|>
    (match cs with
     | a :: ')' :: rest => if a.isAlpha then some (['(', a, ')'], rest) else none
     | _ => none) <|>
    (let rs := cs.takeWhile romanChar
     if rs.isEmpty then none
     else
       match cs.dropWhile romanChar with
       | ')' :: rest => some ('(' :: (rs ++ [')']), rest)
       | _ => none)
  | _ => none

/-- Try one numbering alternative and require its `\s+` follower, yielding
the token and the text after the whitespace (the `.*$` group). -/
def labelAttempt (parse : List Char → Option (List Char × List Char))
    (l : List Char) : Option (String × String) :=
  match parse l with
  | none => none
  | some (tok, rest) =>
    if (rest.takeWhile pyWS).isEmpty then none
    else some ((⟨tok⟩ : String), (⟨rest.dropWhile pyWS⟩ : String))

/-- Source `SECTION_HEADER_CANDIDATE_RE.match(raw)`: the `num` alternatives
in regex order, each requiring the `\s+` follower (a follower failure lets
the next alternative try, as the backtracking engine does). -/
def section_header_candidate (raw : String) : Option (String × String) :=
  let l := raw.toList.dropWhile pyWS
  labelAttempt headerAltA l <|> labelAttempt headerAltB l <|>
    labelAttempt headerAltC l <|> labelAttempt headerAltD l <|>
    labelAttempt headerAltE l

/-- Source `clause_re.match(raw)` (the local clause regex in
`segment_sections`, identical to the module-level `CLAUSE_LABEL_RE`): the
parenthesized alternative first, then the numbering alternatives — here the
single-letter branch comes before the roman branch. -/
def clause_label_match (raw : String) : Option (String × String) :=
  let l := raw.toList.dropWhile pyWS
  labelAttempt parenLabelAlt l <|> labelAttempt headerAltA l <|>
    labelAttempt headerAltB l <|> labelAttempt headerAltD l <|>
    labelAttempt headerAltC l

/-- Removal of one trailing `.` or `)` — `re.sub(r'[.)]$', '', label)`. -/
def stripOneTrailingDotParen (s : String) : String :=
  match s.toList.getLast? with
  | some c => if c = '.' || c = ')' then ⟨s.toList.dropLast⟩ else s
  | none => s

/-- Removal of all trailing `.` and `)` — `str.rstrip(".)")`. -/
def rstripDotsParens (s : String) : String :=
  ⟨(s.toList.reverse.dropWhile (fun c => c = '.' || c = ')')).reverse⟩

/-! ### Contract-type derivation and the title classifier -/

/-- Characters of `[A-Za-z ]`. -/
def letterOrSpace (c : Char) : Bool :=
  c.isAlpha || c = ' '

/-- Greedy `[A-Za-z ]*` followed by a case-insensitive suffix inside a
letter-or-space region: the match ending furthest right wins, mirroring the
backtracking of a greedy star. -/
def starThenSuffixCI (suffix : List Char) : List Char → Option (List Char)
  | [] => (matchLitCI suffix []).map Prod.fst
  | c :: cs =>
    match starThenSuffixCI suffix cs with
    | some g => some (c :: g)
    | none => (matchLitCI suffix (c :: cs)).map Prod.fst

/-- Search of `pre[A-Za-z ]*suffix` (ignore-case): leftmost start position,
greedy star.  The suffix consists of letters, so a match can never extend
past the maximal letter-or-space region after the prefix. -/
def searchPrefStarSuffixCI (pre suffix : List Char) : List Char → Option (List Char)
  | [] =>
    (match matchLitCI pre [] with
     | none => none
     | some (consumedPre, rest) =>
       (starThenSuffixCI suffix (rest.takeWhile letterOrSpace)).map
         (fun g => consumedPre ++ g))
  | c :: cs =>
    (match matchLitCI pre (c :: cs) with
     | none => none
     | some (consumedPre, rest) =>
       (starThenSuffixCI suffix (rest.takeWhile letterOrSpace)).map
         (fun g => consumedPre ++ g)) <|>
    searchPrefStarSuffixCI pre suffix cs

/-- Search of an alternation of case-insensitive literals: leftmost position
first, then alternation order. -/
def searchLiteralAltsCI (alts : List (List Char)) : List Char → Option (List Char)
  | [] => firstSome (fun lit => (matchLitCI lit ([] : List Char)).map Prod.fst) alts
  | c :: cs =>
    match firstSome (fun lit => (matchLitCI lit (c :: cs)).map Prod.fst) alts with
    | some g => some g
    | none => searchLiteralAltsCI alts cs

/-- Python `str.title()` on ASCII text: a letter after a non-letter is
upper-cased, a letter after a letter is lower-cased. -/
def titleCaseGo : Bool → List Char → List Char
  | _, [] => []
  | prevAlpha, c :: cs =>
    (if c.isAlpha then (if prevAlpha then c.toLower else c.toUpper) else c)
      :: titleCaseGo c.isAlpha cs

/-- Python `str.title()`. -/
def pyTitleStr (s : String) : String :=
  ⟨titleCaseGo false s.toList⟩

/-- Final step of `derive_contract_type_from_title`:
`m.group(1).strip().title()` on a match, `"Agreement"` otherwise. -/
def deriveTypeResult : Option (List Char) → String
  | some g => pyTitleStr (pyStrip (⟨g⟩ : String))
  | none => "Agreement"

/-- Source `derive_contract_type_from_title`: the ordered pattern list, most
specific first; the first match is stripped and title-cased, with fallback
`"Agreement"`. -/
def derive_contract_type_from_title (title : String) : String :=
  let t := pyStripL title.toList
  deriveTypeResult
    (searchPrefStarSuffixCI "Master ".toList "Agreement".toList t <|>
      searchPrefStarSuffixCI [] "Agreement".toList t <|>
      searchPrefStarSuffixCI [] "Contract".toList t <|>
      searchPrefStarSuffixCI [] "Lease".toList t <|>
      searchLiteralAltsCI
        ["Non-Disclosure Agreement".toList, "Non Disclosure Agreement".toList,
         "NDA".toList] t <|>
      searchLiteralAltsCI ["Statement of Work".toList, "SOW".toList] t <|>
      searchLiteralAltsCI ["Amendment".toList, "Addendum".toList] t)

/-- Keyword cue of the title classifier:
`\b(AGREEMENT|CONTRACT|LEASE|AMENDMENT|ADDENDUM|NDA|STATEMENT OF WORK|SOW)\b`
(ignore-case search; only existence matters). -/
def hasKeywordCue (ln : String) : Bool :=
  ["AGREEMENT", "CONTRACT", "LEASE", "AMENDMENT", "ADDENDUM", "NDA",
   "STATEMENT OF WORK", "SOW"].any
    (fun kw => searchWordBoundedPhrase kw.toList none ln.toList)

/-- Loop structure of `guess_title_and_type` over the candidate lines:
first the title-and-keyword pass over the first 15 candidates, then the
title-only pass, then the first non-exhibit line, with the
`("Agreement", "Agreement")` fallback. -/
def classifyFromCandidates (candidates : List String) : String × String :=
  match (candidates.take 15).find? (fun ln =>
      !is_exhibit_header ln && (looks_like_title ln && hasKeywordCue ln)) with
  | some ln => (normalize_whitespace ln, derive_contract_type_from_title ln)
  | none =>
    match (candidates.take 15).find? (fun ln =>
        !is_exhibit_header ln && looks_like_title ln) with
    | some ln => (normalize_whitespace ln, derive_contract_type_from_title ln)
    | none =>
      match candidates.find? (fun ln => !is_exhibit_header ln) with
      | some ln => (normalize_whitespace ln, derive_contract_type_from_title ln)
      | none => ("Agreement", "Agreement")

/-- Source `guess_title_and_type`: the candidate lines are the non-empty
stripped lines of the first page. -/
def guess_title_and_type (pages_lines : List (List String)) : String × String :=
  classifyFromCandidates
    (((pages_lines.headD []).map pyStrip).filter (fun ln => ln ≠ ""))

/-! ### Line normalizer and the section/clause segmenter -/

/-- Blank-run collapsing inside `split_into_lines_by_page`: a blank line
following a blank line is skipped. -/
def stabilizeBlankRuns : Bool → List String → List String
  | _, [] => []
  | prevEmpty, ln :: rest =>
    if ln = "" && prevEmpty then stabilizeBlankRuns prevEmpty rest
    else ln :: stabilizeBlankRuns (ln = "") rest

/-- Python `str.split('\n')` on a character list (empty pieces kept). -/
def splitNLList (l : List Char) : List (List Char) :=
  l.foldr
    (fun c acc =>
      if c = '\n' then [] :: acc
      else
        match acc with
        | [] => [[c]]
        | w :: ws => (c :: w) :: ws)
    [[]]

/-- Python `str.split('\n')`. -/
def pySplitNL (s : String) : List String :=
  (splitNLList s.toList).map (fun l => (⟨l⟩ : String))

/-- Source `split_into_lines_by_page`: split each page on newlines, strip
each line, collapse consecutive blank lines. -/
def split_into_lines_by_page (pages : List String) : List (List String) :=
  pages.map (fun p => stabilizeBlankRuns false ((pySplitNL p).map pyStrip))

/-- Clause record produced by the segmenter. -/
structure SegClause where
  text : String
  label : String
  index : Nat
deriving DecidableEq, Repr

/-- Section record produced by the segmenter. -/
structure SegSection where
  title : String
  number : Option String
  clauses : List SegClause
deriving DecidableEq, Repr

/-- Source `start_section` inside `segment_sections`. -/
def start_section (title : String) (number : Option String) : SegSection :=
  { title := if title ≠ "" then normalize_whitespace title else ""
    number := normalize_section_number number
    clauses := [] }

/-- Append a clause to the current (most recently opened) section.  The
Python code mutates `current_section`, which is always the last element of
`sections`; the section list is kept reversed here, head = current. -/
def appendClause (secs : List SegSection) (c : SegClause) : List SegSection :=
  match secs with
  | [] => []
  | s :: rest => { s with clauses := s.clauses ++ [c] } :: rest

/-- Continuation line handling: extend the last clause's text, or open the
section's first unlabeled clause. -/
def continuationStep (secs : List SegSection) (raw : String) : List SegSection :=
  match secs with
  | [] => []
  | s :: restSecs =>
    if s.clauses.isEmpty then
      { s with clauses := [⟨normalize_whitespace raw, "", 0⟩] } :: restSecs
    else
      { s with clauses :=
          s.clauses.dropLast ++
            [{ (s.clauses.getLastD ⟨"", "", 0⟩) with
                text := normalize_whitespace
                  ((s.clauses.getLastD ⟨"", "", 0⟩).text ++ " " ++ raw) }] }
        :: restSecs

/-- Known-title skip test:
`known_title and raw.upper() == known_title.strip().upper()`. -/
def isKnownTitleLine (known_title : Option String) (raw : String) : Bool :=
  match known_title with
  | some kt => kt ≠ "" && pyUpper raw == pyUpper (pyStrip kt)
  | none => false

/-- Split-short-heading of `segment_sections`: a lazy 1–80 character head
(free of separator characters) before a separator, then the trailing text.
Returns `(none, rest)` when the regex does not match. -/
def headingSepChar (c : Char) : Bool :=
  c = '.' || c = ':' || c = ';' || c = '-' || c = '–' || c = '—'

/-- Source `split_short_heading` (callers pass stripped text, so the
leading `\s*` is already consumed). -/
def split_short_heading (rest : String) : Option String × String :=
  let l := rest.toList.dropWhile pyWS
  let pre := l.takeWhile (fun c => !headingSepChar c)
  match l.dropWhile (fun c => !headingSepChar c) with
  | [] => (none, rest)
  | _sep :: after =>
    if pre.isEmpty then (none, rest)
    else
      let headRaw := (pre.reverse.dropWhile pyWS).reverse
      if decide (80 < headRaw.length) then (none, rest)
      else (some (⟨pyStripL headRaw⟩ : String), (⟨pyStripL after⟩ : String))

/-- Source `is_short_title` (local helper of `segment_sections`), using the
extended `VERBISH_LOCAL` verb list.  For a single word: no terminal
punctuation and an upper-case start (or a fully upper-case word); otherwise
at most 8 words. -/
def is_short_title (text : String) : Bool :=
  let t := pyStripL text.toList
  if t.isEmpty || decide (120 < t.length) then false
  else if hasVerbCue verbWordsLocal t then false
  else
    match pyWordsL t with
    | [w] =>
      if (match w.getLast? with
          | some c => c = '.' || c = ',' || c = ';' || c = ':' || c = '!' || c = '?'
          | none => false) then false
      else if !((match w.head? with
                 | some c => c.isUpper
                 | none => false) ||
                (w.any Char.isAlpha && (w.filter Char.isAlpha).all Char.isUpper)) then
        false
      else true
    | ws => decide (ws.length ≤ 8)

/-- One step of the segmenter state machine on a non-skipped line, after the
header checks have failed: implicit `General` section, clause-label handling
with the heading reinterpretations, else continuation.  The section list is
reversed (head = current section). -/
def clauseOrContinuationStep (secs : List SegSection) (raw : String) : List SegSection :=
  let secs1 := if secs.isEmpty then [start_section "General" none] else secs
  match clause_label_match raw with
  | some (labelRaw, rest0) =>
    let restT := pyStrip rest0
    let num_token := stripOneTrailingDotParen labelRaw
    if pyIsDigitStr num_token && is_short_title restT then
      start_section restT (some num_token) :: secs1
    else
      match (if pyIsDigitStr num_token then split_short_heading restT
             else (none, restT)) with
      | (some head, tail) =>
        if is_short_title head then
          let newSec := start_section head (some num_token)
          let newSec2 :=
            if tail ≠ "" then
              match clause_label_match tail with
              | some (subLabel, subRest) =>
                { newSec with clauses :=
                    [⟨normalize_whitespace subRest, normalize_whitespace subLabel, 0⟩] }
              | none =>
                { newSec with clauses := [⟨normalize_whitespace tail, "", 0⟩] }
            else newSec
          newSec2 :: secs1
        else
          appendClause secs1
            ⟨normalize_whitespace restT, normalize_whitespace labelRaw, 0⟩
      | (none, _) =>
        appendClause secs1
          ⟨normalize_whitespace restT, normalize_whitespace labelRaw, 0⟩
  | none => continuationStep secs1 raw

/-- Main line loop of `segment_sections` over the flattened document lines
(the page index attached to each line is never consulted). -/
def segLoop (known_title : Option String) : List String → List SegSection → List SegSection
  | [], secs => secs
  | line :: rest, secs =>
    let raw := pyStrip line
    if raw = "" || is_page_marker raw || is_exhibit_header raw then
      segLoop known_title rest secs
    else if isKnownTitleLine known_title raw then
      segLoop known_title rest secs
    else
      let headerStep : Option (List SegSection) :=
        match section_header_candidate raw with
        | none => none
        | some (numRaw, remainder0) =>
          let num := rstripDotsParens numRaw
          let remainder := pyStrip remainder0
          if pyIsDigitStr num && !is_small_integer_token num then none
          else if is_titleish_header remainder then
            some (start_section remainder (some num) :: secs)
          else none
      match headerStep with
      | some secs2 => segLoop known_title rest secs2
      | none =>
        if is_titleish_header raw && looks_valid_section_title raw &&
            !is_exhibit_header raw then
          segLoop known_title rest (start_section raw none :: secs)
        else
          segLoop known_title rest (clauseOrContinuationStep secs raw)

/-- Reindex pass at the end of `segment_sections`. -/
def setSegIndex (i : Nat) (c : SegClause) : SegClause :=
  { c with index := i }

/-- Source `segment_sections`: run the state machine over the flattened
lines, restore document order, recompute clause indices, and keep the
sections with a non-empty clause list or a non-empty title. -/
def segment_sections (lines_by_page : List (List String))
    (known_title : Option String) : List SegSection :=
  let doc_lines := lines_by_page.flatten
  let ordered := (segLoop known_title doc_lines []).reverse
  (ordered.map (fun s =>
      { s with clauses := enumMapFrom setSegIndex 0 s.clauses })).filter
    (fun s => !s.clauses.isEmpty || s.title ≠ "")

/-! ### Claim C4: segmentation of the DEFINITIONS example -/

/-- The page text of the specification's segmentation example. -/
def c4PageText : String :=
  "1. DEFINITIONS\n(a) Foo means bar.\n(b) Baz means qux."

/-- Counterexample to claim C4 as stated: segmenting the example page does
not produce a section titled `"DEFINITIONS"` with number `"1"`.  The
remainder `"DEFINITIONS"` is a single word, so `is_titleish_header` rejects
it (two-word minimum) and the numbered-header branch does not fire; the
whole line then passes the bare title-line test instead. -/
theorem segment_definitions_example_counterexample :
    segment_sections (split_into_lines_by_page [c4PageText]) none
      ≠ [⟨"DEFINITIONS", some "1",
          [⟨"Foo means bar.", "(a)", 0⟩, ⟨"Baz means qux.", "(b)", 1⟩]⟩] := by
  decide

/-- Claim C4 as amended: the example yields exactly one section, with the
full line `"1. DEFINITIONS"` as its title and a null number, and the two
clauses exactly as claimed. -/
theorem segment_definitions_example :
    segment_sections (split_into_lines_by_page [c4PageText]) none
      = [⟨"1. DEFINITIONS", none,
          [⟨"Foo means bar.", "(a)", 0⟩, ⟨"Baz means qux.", "(b)", 1⟩]⟩] := by
  decide

/-! ### Claim C8: the classifier on a MASTER SERVICES AGREEMENT title -/

/-- Claim C8: a first page whose title line is `"MASTER SERVICES AGREEMENT"`
is classified with that title and contract type
`"Master Services Agreement"` (the most specific pattern
`Master [A-Za-z ]*Agreement` matches and is title-cased). -/
theorem classifier_master_services_agreement :
    guess_title_and_type [["MASTER SERVICES AGREEMENT"]]
      = ("MASTER SERVICES AGREEMENT", "Master Services Agreement") := by
  decide

/-! ### Claim C10: the classifier always returns non-empty strings -/

theorem mem_dropWhile_of_not {α : Type} (p : α → Bool) (l : List α) (c : α)
    (hc : c ∈ l) (hp : p c = false) : c ∈ l.dropWhile p := by
  induction l with
  | nil => cases hc
  | cons a as ih =>
    rw [List.dropWhile_cons]
    by_cases ha : p a
    · rw [if_pos ha]
      rcases List.mem_cons.mp hc with h | h
      · subst h; rw [hp] at ha; exact absurd ha (by simp)
      · exact ih h
    · rw [if_neg ha]
      exact hc

theorem pyStripL_ne_nil (l : List Char) (c : Char) (hc : c ∈ l)
    (hws : pyWS c = false) : pyStripL l ≠ [] := by
  intro h
  have h1 : c ∈ l.dropWhile pyWS := mem_dropWhile_of_not pyWS l c hc hws
  have h2 : c ∈ (l.dropWhile pyWS).reverse := List.mem_reverse.mpr h1
  have h3 : c ∈ (l.dropWhile pyWS).reverse.dropWhile pyWS :=
    mem_dropWhile_of_not pyWS _ c h2 hws
  have h4 : c ∈ pyStripL l := List.mem_reverse.mpr h3
  rw [h] at h4
  cases h4

theorem pyWordsL_ne_nil (l : List Char) (c : Char) (hc : c ∈ l)
    (hws : pyWS c = false) : pyWordsL l ≠ [] := by
  induction l with
  | nil => cases hc
  | cons a as ih =>
    by_cases ha : pyWS a
    · have hca : c ≠ a := by
        intro h
        subst h
        rw [hws] at ha
        exact absurd ha (by simp)
      have hc' : c ∈ as := by
        rcases List.mem_cons.mp hc with h | h
        · exact absurd h hca
        · exact h
      unfold pyWordsL
      rw [wordsInner_cons, if_pos ha]
      have hfe : List.filter (fun w => !w.isEmpty) ([] :: wordsInner as)
          = List.filter (fun w => !w.isEmpty) (wordsInner as) := by simp
      rw [hfe]
      exact ih hc'
    · unfold pyWordsL
      rw [wordsInner_cons, if_neg ha]
      cases hi : wordsInner as with
      | nil => simp
      | cons w ws' => simp [List.filter_cons]

theorem joinWordsL_ne_nil (w : List Char) (ws : List (List Char)) (hw : w ≠ []) :
    joinWordsL (w :: ws) ≠ [] := by
  unfold joinWordsL
  cases w with
  | nil => exact absurd rfl hw
  | cons a as => simp

theorem string_mk_ne_empty (l : List Char) (h : l ≠ []) : (⟨l⟩ : String) ≠ "" := by
  intro he
  exact h (congrArg String.data he)

theorem normalize_whitespace_ne_empty (s : String) (c : Char) (hc : c ∈ s.toList)
    (hws : pyWS c = false) : normalize_whitespace s ≠ "" := by
  unfold normalize_whitespace
  have hwords := pyWordsL_ne_nil s.toList c hc hws
  cases hwds : pyWordsL s.toList with
  | nil => exact absurd hwds hwords
  | cons w ws =>
    have hwne : w ≠ [] := (pyWordsL_clean s.toList w (hwds ▸ List.mem_cons_self w ws)).1
    exact string_mk_ne_empty _ (joinWordsL_ne_nil w ws hwne)

theorem pyStrip_nonempty_normalize (x : String)
    (hne : pyStrip x ≠ "") : normalize_whitespace (pyStrip x) ≠ "" := by
  cases hl : (pyStrip x).toList with
  | nil =>
    exfalso
    apply hne
    show (⟨pyStripL x.toList⟩ : String) = ""
    have hnil : pyStripL x.toList = [] := hl
    rw [hnil]
  | cons c cs =>
    have hc : pyWS c = false := by
      have : pyStripL x.toList = c :: cs := hl
      exact pyStripL_head_false x.toList this
    exact normalize_whitespace_ne_empty (pyStrip x) c (hl ▸ List.mem_cons_self c cs) hc

theorem matchLitCI_head (q : Char) (qs s consumed rest : List Char)
    (h : matchLitCI (q :: qs) s = some (consumed, rest)) :
    ∃ c cs, consumed = c :: cs ∧ c.toLower = q.toLower := by
  cases s with
  | nil => simp [matchLitCI] at h
  | cons c cs =>
    by_cases hc : c.toLower = q.toLower
    · rw [show matchLitCI (q :: qs) (c :: cs)
          = (match matchLitCI qs cs with
             | some (consumed, rest) => some (c :: consumed, rest)
             | none => none) from by rw [matchLitCI]; rw [if_pos hc]] at h
      cases hi : matchLitCI qs cs with
      | none => rw [hi] at h; exact absurd h (by simp)
      | some p =>
        obtain ⟨p1, p2⟩ := p
        rw [hi] at h
        have h1 : c :: p1 = consumed := congrArg Prod.fst (Option.some.inj h)
        exact ⟨c, p1, h1.symm, hc⟩
    · rw [show matchLitCI (q :: qs) (c :: cs) = none from by
        rw [matchLitCI]; rw [if_neg hc]] at h
      exact absurd h (by simp)

theorem starThenSuffixCI_witness (q : Char) (qs : List Char) :
    ∀ (region g : List Char), starThenSuffixCI (q :: qs) region = some g →
      ∃ c ∈ g, c.toLower = q.toLower := by
  intro region
  induction region with
  | nil =>
    intro g h
    simp only [starThenSuffixCI] at h
    cases hi : matchLitCI (q :: qs) [] with
    | none => rw [hi] at h; exact absurd h (by simp)
    | some p => simp [matchLitCI] at hi
  | cons c cs ih =>
    intro g h
    simp only [starThenSuffixCI] at h
    cases hrec : starThenSuffixCI (q :: qs) cs with
    | some g' =>
      rw [hrec] at h
      injection h with h
      obtain ⟨d, hd, hdl⟩ := ih g' hrec
      exact ⟨d, by rw [← h]; exact List.mem_cons_of_mem c hd, hdl⟩
    | none =>
      rw [hrec] at h
      cases hm : matchLitCI (q :: qs) (c :: cs) with
      | none => rw [hm] at h; exact absurd h (by simp)
      | some p =>
        obtain ⟨p1, p2⟩ := p
        rw [hm] at h
        simp only [Option.map_some'] at h
        injection h with h
        obtain ⟨d, ds, hcons, hdl⟩ := matchLitCI_head q qs (c :: cs) p1 p2 hm
        refine ⟨d, ?_, hdl⟩
        rw [← h, hcons]
        exact List.mem_cons_self d ds

theorem searchPrefStarSuffixCI_witness (pre : List Char) (q : Char) (qs : List Char) :
    ∀ (l g : List Char), searchPrefStarSuffixCI pre (q :: qs) l = some g →
      ∃ c ∈ g, c.toLower = q.toLower := by
  intro l
  induction l with
  | nil =>
    intro g h
    simp only [searchPrefStarSuffixCI] at h
    cases hm : matchLitCI pre [] with
    | none => rw [hm] at h; exact absurd h (by simp)
    | some p =>
      obtain ⟨p1, p2⟩ := p
      rw [hm] at h
      simp only [] at h
      cases hs : starThenSuffixCI (q :: qs) (p2.takeWhile letterOrSpace) with
      | none => rw [hs] at h; exact absurd h (by simp)
      | some g' =>
        rw [hs] at h
        simp only [Option.map_some'] at h
        injection h with h
        obtain ⟨d, hd, hdl⟩ := starThenSuffixCI_witness q qs _ g' hs
        exact ⟨d, by rw [← h]; exact List.mem_append_right _ hd, hdl⟩
  | cons c cs ih =>
    intro g h
    simp only [searchPrefStarSuffixCI] at h
    cases hm : matchLitCI pre (c :: cs) with
    | none =>
      rw [hm] at h
      simp only [Option.none_orElse] at h
      exact ih g h
    | some p =>
      obtain ⟨p1, p2⟩ := p
      rw [hm] at h
      simp only [] at h
      cases hs : starThenSuffixCI (q :: qs) (p2.takeWhile letterOrSpace) with
      | none =>
        rw [hs] at h
        simp only [Option.map_none', Option.none_orElse] at h
        exact ih g h
      | some g' =>
        rw [hs] at h
        simp only [Option.map_some', Option.some_orElse] at h
        injection h with h
        obtain ⟨d, hd, hdl⟩ := starThenSuffixCI_witness q qs _ g' hs
        exact ⟨d, by rw [← h]; exact List.mem_append_right _ hd, hdl⟩

theorem firstSome_eq_some {α β : Type} (f : α → Option β) :
    ∀ (l : List α) (b : β), firstSome f l = some b → ∃ a ∈ l, f a = some b := by
  intro l
  induction l with
  | nil => intro b h; simp [firstSome] at h
  | cons a as ih =>
    intro b h
    simp only [firstSome] at h
    cases hf : f a with
    | some c =>
      rw [hf] at h
      injection h with h
      exact ⟨a, List.mem_cons_self a as, by rw [hf, h]⟩
    | none =>
      rw [hf] at h
      obtain ⟨a', ha', hfa'⟩ := ih b h
      exact ⟨a', List.mem_cons_of_mem a ha', hfa'⟩

theorem searchLiteralAltsCI_witness (alts : List (List Char)) (q : Char)
    (halts : ∀ alt ∈ alts, ∃ qs, alt = q :: qs) :
    ∀ (l g : List Char), searchLiteralAltsCI alts l = some g →
      ∃ c ∈ g, c.toLower = q.toLower := by
  intro l
  induction l with
  | nil =>
    intro g h
    simp only [searchLiteralAltsCI] at h
    obtain ⟨alt, halt, hm⟩ := firstSome_eq_some _ alts g h
    obtain ⟨qs, rfl⟩ := halts alt halt
    cases hmm : matchLitCI (q :: qs) ([] : List Char) with
    | none => rw [hmm] at hm; exact absurd hm (by simp)
    | some p => simp [matchLitCI] at hmm
  | cons c cs ih =>
    intro g h
    simp only [searchLiteralAltsCI] at h
    cases hfs : firstSome (fun lit => (matchLitCI lit (c :: cs)).map Prod.fst) alts with
    | some g0 =>
      rw [hfs] at h
      injection h with h
      subst h
      obtain ⟨alt, halt, hm⟩ := firstSome_eq_some _ alts g0 hfs
      obtain ⟨qs, rfl⟩ := halts alt halt
      cases hmm : matchLitCI (q :: qs) (c :: cs) with
      | none => rw [hmm] at hm; exact absurd hm (by simp)
      | some p =>
        obtain ⟨p1, p2⟩ := p
        rw [hmm] at hm
        simp only [Option.map_some'] at hm
        injection hm with hm
        obtain ⟨d, ds, hcons, hdl⟩ := matchLitCI_head q qs (c :: cs) p1 p2 hmm
        refine ⟨d, ?_, hdl⟩
        rw [← hm, hcons]
        exact List.mem_cons_self d ds
    | none =>
      rw [hfs] at h
      exact ih g h

theorem pyWS_false_of_toLower_mem (c q : Char)
    (hq : q = 'a' ∨ q = 'c' ∨ q = 'l' ∨ q = 'n' ∨ q = 's' ∨ q = 'm')
    (h : c.toLower = q) : pyWS c = false := by
  by_cases h1 : pyWS c = true
  · exfalso
    have hc : c = ' ' ∨ c = '\t' ∨ c = '\n' ∨ c = '\r' ∨ c = '\x0b' ∨ c = '\x0c' := by
      simpa [pyWS, or_assoc] using h1
    rcases hc with rfl | rfl | rfl | rfl | rfl | rfl <;>
      rcases hq with rfl | rfl | rfl | rfl | rfl | rfl <;>
        exact absurd h (by decide)
  · simpa using h1

theorem titleCaseGo_ne_nil (b : Bool) (l : List Char) (h : l ≠ []) :
    titleCaseGo b l ≠ [] := by
  cases l with
  | nil => exact absurd rfl h
  | cons c cs => simp [titleCaseGo]

/-- The type-derivation result for a matched group: when every possible
match contains a non-whitespace character, the stripped, title-cased result
is non-empty (and the fallback literal is non-empty). -/
theorem derive_result_nonempty (o : Option (List Char))
    (ho : ∀ g, o = some g → ∃ c ∈ g, pyWS c = false) :
    deriveTypeResult o ≠ "" := by
  cases o with
  | none => decide
  | some g =>
    obtain ⟨c, hc, hws⟩ := ho g rfl
    have hstrip : pyStripL g ≠ [] := pyStripL_ne_nil g c hc hws
    show (⟨titleCaseGo false (pyStrip (⟨g⟩ : String)).toList⟩ : String) ≠ ""
    exact string_mk_ne_empty _ (titleCaseGo_ne_nil false _ hstrip)

/-- Alternation of two optional matchers preserves a property of the
produced group. -/
theorem orElse_witness {β : Type} (P : β → Prop) (o1 o2 : Option β)
    (h1 : ∀ g, o1 = some g → P g) (h2 : ∀ g, o2 = some g → P g) :
    ∀ g, (o1 <|> o2) = some g → P g := by
  intro g hg
  cases o1 with
  | none =>
    rw [Option.none_orElse] at hg
    exact h2 g hg
  | some x =>
    rw [Option.some_orElse] at hg
    exact h1 g hg

/-- Any group produced by the pattern chain of
`derive_contract_type_from_title` contains a non-whitespace character (a
letter of the matched mandatory word). -/
theorem derive_chain_witness (tl : List Char) :
    ∀ g, (searchPrefStarSuffixCI "Master ".toList "Agreement".toList tl <|>
        searchPrefStarSuffixCI [] "Agreement".toList tl <|>
        searchPrefStarSuffixCI [] "Contract".toList tl <|>
        searchPrefStarSuffixCI [] "Lease".toList tl <|>
        searchLiteralAltsCI
          ["Non-Disclosure Agreement".toList, "Non Disclosure Agreement".toList,
           "NDA".toList] tl <|>
        searchLiteralAltsCI ["Statement of Work".toList, "SOW".toList] tl <|>
        searchLiteralAltsCI ["Amendment".toList, "Addendum".toList] tl) = some g →
      ∃ c ∈ g, pyWS c = false := by
  have conv1 : ∀ (pre qs : List Char) (q ql : Char),
      (ql = 'a' ∨ ql = 'c' ∨ ql = 'l' ∨ ql = 'n' ∨ ql = 's' ∨ ql = 'm') →
      q.toLower = ql →
      ∀ g, searchPrefStarSuffixCI pre (q :: qs) tl = some g →
        ∃ c ∈ g, pyWS c = false := by
    intro pre qs q ql hql hq g hg
    obtain ⟨c, hc, hcl⟩ := searchPrefStarSuffixCI_witness pre q qs tl g hg
    exact ⟨c, hc, pyWS_false_of_toLower_mem c ql hql (by rw [hcl, hq])⟩
  have conv2 : ∀ (alts : List (List Char)) (q ql : Char),
      (ql = 'a' ∨ ql = 'c' ∨ ql = 'l' ∨ ql = 'n' ∨ ql = 's' ∨ ql = 'm') →
      q.toLower = ql →
      (∀ alt ∈ alts, ∃ qs, alt = q :: qs) →
      ∀ g, searchLiteralAltsCI alts tl = some g →
        ∃ c ∈ g, pyWS c = false := by
    intro alts q ql hql hq halts g hg
    obtain ⟨c, hc, hcl⟩ := searchLiteralAltsCI_witness alts q halts tl g hg
    exact ⟨c, hc, pyWS_false_of_toLower_mem c ql hql (by rw [hcl, hq])⟩
  refine orElse_witness _ _ _
    (fun g hg => conv1 _ _ 'A' 'a' (by simp) (by decide) g (by exact hg)) ?_
  refine orElse_witness _ _ _
    (fun g hg => conv1 _ _ 'A' 'a' (by simp) (by decide) g (by exact hg)) ?_
  refine orElse_witness _ _ _
    (fun g hg => conv1 _ _ 'C' 'c' (by simp) (by decide) g (by exact hg)) ?_
  refine orElse_witness _ _ _
    (fun g hg => conv1 _ _ 'L' 'l' (by simp) (by decide) g (by exact hg)) ?_
  refine orElse_witness _ _ _
    (fun g hg => conv2 _ 'N' 'n' (by simp) (by decide) ?_ g (by exact hg)) ?_
  · intro alt halt
    simp only [List.mem_cons, List.not_mem_nil, or_false] at halt
    rcases halt with rfl | rfl | rfl
    · exact ⟨"on-Disclosure Agreement".toList, rfl⟩
    · exact ⟨"on Disclosure Agreement".toList, rfl⟩
    · exact ⟨"DA".toList, rfl⟩
  refine orElse_witness _ _ _
    (fun g hg => conv2 _ 'S' 's' (by simp) (by decide) ?_ g (by exact hg))
    (fun g hg => conv2 _ 'A' 'a' (by simp) (by decide) ?_ g (by exact hg))
  · intro alt halt
    simp only [List.mem_cons, List.not_mem_nil, or_false] at halt
    rcases halt with rfl | rfl
    · exact ⟨"tatement of Work".toList, rfl⟩
    · exact ⟨"OW".toList, rfl⟩
  · intro alt halt
    simp only [List.mem_cons, List.not_mem_nil, or_false] at halt
    rcases halt with rfl | rfl
    · exact ⟨"mendment".toList, rfl⟩
    · exact ⟨"ddendum".toList, rfl⟩

/-- The derived contract type is never the empty string. -/
theorem derive_contract_type_nonempty (t : String) :
    derive_contract_type_from_title t ≠ "" := by
  show deriveTypeResult _ ≠ ""
  exact derive_result_nonempty _ (derive_chain_witness (pyStripL t.toList))

/-- Classification from candidates returns non-empty strings whenever every
candidate normalizes to a non-empty string. -/
theorem classifyFromCandidates_nonempty (candidates : List String)
    (hcand : ∀ ln ∈ candidates, normalize_whitespace ln ≠ "") :
    (classifyFromCandidates candidates).1 ≠ "" ∧
    (classifyFromCandidates candidates).2 ≠ "" := by
  unfold classifyFromCandidates
  cases h1 : (candidates.take 15).find? (fun ln =>
      !is_exhibit_header ln && (looks_like_title ln && hasKeywordCue ln)) with
  | some ln =>
    refine ⟨?_, ?_⟩
    · exact hcand ln (List.take_subset 15 candidates (List.mem_of_find?_eq_some h1))
    · exact derive_contract_type_nonempty ln
  | none =>
  cases h2 : (candidates.take 15).find? (fun ln =>
      !is_exhibit_header ln && looks_like_title ln) with
  | some ln =>
    refine ⟨?_, ?_⟩
    · exact hcand ln (List.take_subset 15 candidates (List.mem_of_find?_eq_some h2))
    · exact derive_contract_type_nonempty ln
  | none =>
  cases h3 : candidates.find? (fun ln => !is_exhibit_header ln) with
  | some ln =>
    refine ⟨?_, ?_⟩
    · exact hcand ln (List.mem_of_find?_eq_some h3)
    · exact derive_contract_type_nonempty ln
  | none => exact ⟨by decide, by decide⟩

/-- Claim C10: the title classifier always returns a non-empty title and a
non-empty contract type, for every input — including an empty page list and
pages whose lines are all blank or all exhibit headers. -/
theorem guess_title_and_type_nonempty (pages_lines : List (List String)) :
    (guess_title_and_type pages_lines).1 ≠ "" ∧
    (guess_title_and_type pages_lines).2 ≠ "" := by
  unfold guess_title_and_type
  refine classifyFromCandidates_nonempty _ ?_
  intro ln hln
  obtain ⟨hmem, hne⟩ := List.mem_filter.mp hln
  obtain ⟨x, _, rfl⟩ := List.mem_map.mp hmem
  exact pyStrip_nonempty_normalize x (by simpa using hne)

/-! ### Effective-date extraction -/

/-- Join a list of character lists with a separator character
(Python `sep.join(...)`). -/
def joinWithChar (c : Char) (ws : List (List Char)) : List Char :=
  match ws with
  | [] => []
  | w :: rest => w ++ rest.foldr (fun v acc => c :: v ++ acc) []

/-- Python `"\n".join(pages)`. -/
def joinNLStrings (pages : List String) : String :=
  ⟨joinWithChar '\n' (pages.map String.toList)⟩

/-- Exact prefix comparison of character lists. -/
def listPrefixEq : List Char → List Char → Bool
  | [], _ => true
  | _ :: _, [] => false
  | p :: ps, c :: cs => decide (p = c) && listPrefixEq ps cs

/-- Position of the first occurrence of a literal substring
(`re.search(...).start()` for a pattern with no metacharacters). -/
def findSubstrPos (pat : List Char) : List Char → Option Nat
  | [] => if pat.isEmpty then some 0 else none
  | c :: cs =>
    if listPrefixEq pat (c :: cs) then some 0
    else (findSubstrPos pat cs).map (· + 1)

/-- Source `EFFECTIVE_DATE_CUES` (each pattern is a literal phrase). -/
def EFFECTIVE_DATE_CUES : List String :=
  ["effective as of", "effective date", "dated as of", "becomes effective on",
   "effective on"]

/-- Cue-position loop of `extract_effective_date`: starting from the snippet
length, keep the smallest start position of any cue occurrence.  The result
is computed by the source and then never used. -/
def earliestCuePos (snippet : List Char) : Nat :=
  EFFECTIVE_DATE_CUES.foldl
    (fun pos cue =>
      match findSubstrPos cue.toList snippet with
      | some p => if p < pos then p else pos
      | none => pos)
    snippet.length

/-- Month-name table for the date patterns. -/
def monthTable : List (Nat × String) :=
  [(1, "January"), (2, "February"), (3, "March"), (4, "April"), (5, "May"),
   (6, "June"), (7, "July"), (8, "August"), (9, "September"), (10, "October"),
   (11, "November"), (12, "December")]

/-- Case-insensitive month-name match at the head of `l`. -/
def matchMonthCI (l : List Char) : Option (Nat × List Char × List Char) :=
  firstSome
    (fun p =>
      (matchLitCI p.2.toList l).map (fun q => (p.1, q.1, q.2)))
    monthTable

/-- Leap-year rule (Gregorian). -/
def leapYear (y : Nat) : Bool :=
  (y % 4 = 0 && y % 100 ≠ 0) || y % 400 = 0

/-- Days in a month. -/
def daysInMonth (y m : Nat) : Nat :=
  if m = 2 then (if leapYear y then 29 else 28)
  else if m = 4 || m = 6 || m = 9 || m = 11 then 30
  else 31

/-- Decimal digits of a natural number (fuel-based). -/
def natToCharsAux : Nat → Nat → List Char
  | 0, _ => []
  | Nat.succ fuel, n =>
    if n = 0 then []
    else natToCharsAux fuel (n / 10) ++ [Char.ofNat (48 + n % 10)]

/-- Decimal digits of a natural number. -/
def natToChars (n : Nat) : List Char :=
  if n = 0 then ['0'] else natToCharsAux (n + 1) n

/-- Zero-padded decimal representation with at least `k` digits. -/
def padZeros (k : Nat) (n : Nat) : List Char :=
  let ds := natToChars n
  List.replicate (k - ds.length) '0' ++ ds

/-- ISO date construction with validity check — models the fact that
the external `datetime`/`dateutil` constructor raises on an invalid
year, month or day (the exception is caught and becomes `None`). -/
def mkIsoDate (y m d : Nat) : Option String :=
  if decide (1 ≤ y) && decide (y ≤ 9999) && decide (1 ≤ m) && decide (m ≤ 12) &&
      decide (1 ≤ d) && decide (d ≤ daysInMonth y m) then
    some ⟨padZeros 4 y ++ '-' :: padZeros 2 m ++ '-' :: padZeros 2 d⟩
  else none

/-- Matcher for `DATE_PATTERNS[0]`:
`(month name)\s+\d{1,2},\s+\d{4}` (ignore-case).  The day takes one or two
digits; a longer digit run can never match because the following `,` is
mandatory. -/
def matchP1At (_prev : Option Char) (l : List Char) : Option (List Char × List Char) :=
  match matchMonthCI l with
  | none => none
  | some (_, mon, r1) =>
    let ws := r1.takeWhile pyWS
    let r2 := r1.dropWhile pyWS
    let ds := r2.takeWhile Char.isDigit
    let r3 := r2.dropWhile Char.isDigit
    if ws.isEmpty || ds.isEmpty || decide (2 < ds.length) then none
    else
      match r3 with
      | ',' :: r4 =>
        let ws2 := r4.takeWhile pyWS
        let r5 := r4.dropWhile pyWS
        let ys := r5.take 4
        if ws2.isEmpty || !(decide (ys.length = 4) && ys.all Char.isDigit) then none
        else some (mon ++ ws ++ ds ++ ',' :: ws2 ++ ys, r5.drop 4)
      | _ => none

/-- Matcher for `DATE_PATTERNS[1]`:
`\d{1,2}\s+(month name),?\s+\d{4}` (ignore-case). -/
def matchP2At (_prev : Option Char) (l : List Char) : Option (List Char × List Char) :=
  let ds := l.takeWhile Char.isDigit
  let r1 := l.dropWhile Char.isDigit
  if ds.isEmpty || decide (2 < ds.length) then none
  else
    let ws := r1.takeWhile pyWS
    let r2 := r1.dropWhile pyWS
    if ws.isEmpty then none
    else
      match matchMonthCI r2 with
      | none => none
      | some (_, mon, r3) =>
        let commaPart : List Char × List Char :=
          match r3 with
          | ',' :: r4 => ([','], r4)
          | r4 => ([], r4)
        let ws2 := commaPart.2.takeWhile pyWS
        let r5 := commaPart.2.dropWhile pyWS
        let ys := r5.take 4
        if ws2.isEmpty || !(decide (ys.length = 4) && ys.all Char.isDigit) then none
        else some (ds ++ ws ++ mon ++ commaPart.1 ++ ws2 ++ ys, r5.drop 4)

/-- Matcher for `DATE_PATTERNS[2]`: `\b\d{4}-\d{2}-\d{2}\b`. -/
def matchP3At (prev : Option Char) (l : List Char) : Option (List Char × List Char) :=
  if !boundaryOk prev then none
  else
    match l with
    | y1 :: y2 :: y3 :: y4 :: '-' :: m1 :: m2 :: '-' :: d1 :: d2 :: rest =>
      if y1.isDigit && y2.isDigit && y3.isDigit && y4.isDigit &&
          m1.isDigit && m2.isDigit && d1.isDigit && d2.isDigit &&
          (match rest.head? with
           | none => true
           | some c => !pyWordChar c) then
        some ([y1, y2, y3, y4, '-', m1, m2, '-', d1, d2], rest)
      else none
    | _ => none

/-- Matcher for `DATE_PATTERNS[3]`: `\b\d{1,2}/\d{1,2}/\d{2,4}\b`.  The
digit runs must fit the allowed counts exactly: a longer run can never back
off because the mandatory `/` (or the closing `\b`) would land on a digit. -/
def matchP4At (prev : Option Char) (l : List Char) : Option (List Char × List Char) :=
  if !boundaryOk prev then none
  else
    let as := l.takeWhile Char.isDigit
    let r1 := l.dropWhile Char.isDigit
    if as.isEmpty || decide (2 < as.length) then none
    else
      match r1 with
      | '/' :: r2 =>
        let bs := r2.takeWhile Char.isDigit
        let r3 := r2.dropWhile Char.isDigit
        if bs.isEmpty || decide (2 < bs.length) then none
        else
          match r3 with
          | '/' :: r4 =>
            let ys := r4.takeWhile Char.isDigit
            let r5 := r4.dropWhile Char.isDigit
            if decide (2 ≤ ys.length) && decide (ys.length ≤ 4) &&
                (match r5.head? with
                 | none => true
                 | some c => !pyWordChar c) then
              some (as ++ '/' :: bs ++ '/' :: ys, r5)
            else none
          | _ => none
      | _ => none

/-- Fuel-bounded `re.finditer` scan: left to right, non-overlapping, the
previous character is carried for `\b` checks.  Fuel equal to the input
length suffices because every step consumes at least one character. -/
def finditerGo (matchAt : Option Char → List Char → Option (List Char × List Char)) :
    Nat → Option Char → List Char → List (List Char)
  | 0, _, _ => []
  | Nat.succ fuel, prev, l =>
    match l with
    | [] => []
    | c :: cs =>
      match matchAt prev (c :: cs) with
      | some (m, rest) => m :: finditerGo matchAt fuel (m.getLastD c) rest
      | none => finditerGo matchAt fuel (some c) cs

/-- All matches of one date pattern over a text (`re.finditer`). -/
def reFinditer (matchAt : Option Char → List Char → Option (List Char × List Char))
    (l : List Char) : List (List Char) :=
  finditerGo matchAt l.length none l

/-- The four date-pattern matchers in the order of `DATE_PATTERNS`. -/
def DATE_PATTERNS :
    List (Option Char → List Char → Option (List Char × List Char)) :=
  [matchP1At, matchP2At, matchP3At, matchP4At]

/-- Parse of a month-name-first candidate (the `DATE_PATTERNS[0]` shape).
Modelled from the external `dateutil` parser, which the source uses when
available (`DATEUTIL_AVAILABLE`); an invalid day raises inside `dateutil`
and the exception becomes `None`. -/
def parseShapeMonthFirst (t : List Char) : Option String :=
  match matchMonthCI t with
  | none => none
  | some (m, _, r1) =>
    let ws := r1.takeWhile pyWS
    let r2 := r1.dropWhile pyWS
    let ds := r2.takeWhile Char.isDigit
    let r3 := r2.dropWhile Char.isDigit
    if ws.isEmpty || ds.isEmpty || decide (2 < ds.length) then none
    else
      match r3 with
      | ',' :: r4 =>
        let ys := (r4.dropWhile pyWS).takeWhile Char.isDigit
        let r5 := (r4.dropWhile pyWS).dropWhile Char.isDigit
        if (r4.takeWhile pyWS).isEmpty || !decide (ys.length = 4) || !r5.isEmpty then none
        else mkIsoDate (digitsToNat ys) m (digitsToNat ds)
      | _ => none

/-- Parse of a day-first candidate (the `DATE_PATTERNS[1]` shape).
Modelled from the external `dateutil` parser. -/
def parseShapeDayMonth (t : List Char) : Option String :=
  let ds := t.takeWhile Char.isDigit
  let r1 := t.dropWhile Char.isDigit
  if ds.isEmpty || decide (2 < ds.length) then none
  else
    let ws := r1.takeWhile pyWS
    let r2 := r1.dropWhile pyWS
    if ws.isEmpty then none
    else
      match matchMonthCI r2 with
      | none => none
      | some (m, _, r3) =>
        let afterComma :=
          match r3 with
          | ',' :: r4 => r4
          | r4 => r4
        let ys := (afterComma.dropWhile pyWS).takeWhile Char.isDigit
        let r5 := (afterComma.dropWhile pyWS).dropWhile Char.isDigit
        if (afterComma.takeWhile pyWS).isEmpty || !decide (ys.length = 4) ||
            !r5.isEmpty then none
        else mkIsoDate (digitsToNat ys) m (digitsToNat ds)

/-- Parse of an ISO-shaped candidate: a valid `YYYY-MM-DD` date passes
through unchanged; an invalid one raises inside the parser and becomes
`None`. -/
def parseShapeIso (t : List Char) : Option String :=
  match t with
  | [y1, y2, y3, y4, '-', m1, m2, '-', d1, d2] =>
    if y1.isDigit && y2.isDigit && y3.isDigit && y4.isDigit &&
        m1.isDigit && m2.isDigit && d1.isDigit && d2.isDigit then
      mkIsoDate (digitsToNat [y1, y2, y3, y4]) (digitsToNat [m1, m2])
        (digitsToNat [d1, d2])
    else none
  | _ => none

/-- Parse of a slash-separated candidate (the `DATE_PATTERNS[3]` shape).
Modelled from the external `dateutil` parser with `dayfirst=False`: the
first number is the month unless it exceeds 12, in which case the two are
swapped; two-digit years are resolved into the 1975–2074 window (the
library uses a window of the same width around the run-time year; 2025 is
the model constant). -/
def parseShapeSlash (t : List Char) : Option String :=
  let as := t.takeWhile Char.isDigit
  let r1 := t.dropWhile Char.isDigit
  if as.isEmpty || decide (2 < as.length) then none
  else
    match r1 with
    | '/' :: r2 =>
      let bs := r2.takeWhile Char.isDigit
      let r3 := r2.dropWhile Char.isDigit
      if bs.isEmpty || decide (2 < bs.length) then none
      else
        match r3 with
        | '/' :: r4 =>
          let ys := r4.takeWhile Char.isDigit
          let r5 := r4.dropWhile Char.isDigit
          if !(decide (2 ≤ ys.length) && decide (ys.length ≤ 4)) || !r5.isEmpty then
            none
          else
            let yn := digitsToNat ys
            let y :=
              if decide (ys.length ≤ 2) then
                (if yn + 2000 ≤ 2074 then yn + 2000 else yn + 1900)
              else yn
            let a := digitsToNat as
            let b := digitsToNat bs
            if a ≤ 12 then mkIsoDate y a b
            else if b ≤ 12 then mkIsoDate y b a
            else none
        | _ => none
    | _ => none

/-- Source `try_parse_date_to_iso` in the `DATEUTIL_AVAILABLE`
configuration: strip, reject the empty string, then hand the candidate to
the natural-language parser (modelled on the four candidate shapes the
date patterns can produce). -/
def try_parse_date_to_iso (s : String) : Option String :=
  let t := pyStripL s.toList
  if t.isEmpty then none
  else
    parseShapeMonthFirst t <|> parseShapeDayMonth t <|> parseShapeIso t <|>
      parseShapeSlash t

/-- The candidate loop of `extract_effective_date`: return the parse of
the first candidate that parses (`for cand: iso = try_parse...; if iso:
return iso`). -/
def returnFirstParsed : List (List Char) → Option String
  | [] => none
  | cand :: rest =>
    match try_parse_date_to_iso ⟨cand⟩ with
    | some iso => some iso
    | none => returnFirstParsed rest

/-- The fallback loop of `extract_effective_date`: for each pattern in
order, take the first match over the whole document (`re.search`) and
return its parse if it succeeds. -/
def fallbackScan :
    List (Option Char → List Char → Option (List Char × List Char)) →
    List Char → Option String
  | [], _ => none
  | p :: ps, doc =>
    match (reFinditer p doc).head? with
    | some m =>
      match try_parse_date_to_iso ⟨m⟩ with
      | some iso => some iso
      | none => fallbackScan ps doc
    | none => fallbackScan ps doc

/-- Source `extract_effective_date`: join the first three pages, compute
the earliest-cue position (the source stores it in `pos` and never reads
it again), collect the candidates pattern by pattern over the full
(unrestricted) first-three-pages text, return the first parsable one,
otherwise run the fallback scan over the whole document. -/
def extract_effective_date (pages_text : List String) : Option String :=
  let full_text := if pages_text.isEmpty then "" else joinNLStrings (pages_text.take 3)
  let snippet := (pyLower full_text).toList
  let _pos := earliestCuePos snippet
  let search_region := full_text.toList
  let date_candidates :=
    DATE_PATTERNS.foldl (fun acc pat => acc ++ reFinditer pat search_region) []
  let firstPass :=
    if date_candidates.isEmpty then none else returnFirstParsed date_candidates
  match firstPass with
  | some iso => some iso
  | none => fallbackScan DATE_PATTERNS (joinNLStrings pages_text).toList

/-- Combined matcher trying the four date patterns at one position, used
by the claim-modelled extractor to collect matches in order of
appearance. -/
def matchAnyDatePattern (prev : Option Char) (l : List Char) :
    Option (List Char × List Char) :=
  matchP1At prev l <|> matchP2At prev l <|> matchP3At prev l <|> matchP4At prev l

/-- All date-like substrings of a text in order of appearance (claim
wording). -/
def collectDatesInOrder (l : List Char) : List (List Char) :=
  reFinditer matchAnyDatePattern l

/-- Extractor written from the claim's words (spec-modelled, for
comparison with the source): restrict the first-three-pages text to the
region starting at the earliest cue occurrence, collect its date-like
substrings in order of appearance and return the first that parses;
otherwise rescan the entire document the same way. -/
def extractEffectiveDateClaimed (pages_text : List String) : Option String :=
  let full_text := if pages_text.isEmpty then "" else joinNLStrings (pages_text.take 3)
  let pos := earliestCuePos ((pyLower full_text).toList)
  let region := full_text.toList.drop pos
  match firstSome (fun cand => try_parse_date_to_iso ⟨cand⟩)
      (collectDatesInOrder region) with
  | some iso => some iso
  | none =>
    firstSome (fun cand => try_parse_date_to_iso ⟨cand⟩)
      (collectDatesInOrder (joinNLStrings pages_text).toList)

/-- Extractor written from the amended claim's words: the cue phrases play
no role; the candidates of the first three pages are collected pattern by
pattern (all matches of the first pattern, then of the second, ...), the
first parsable candidate wins; otherwise, for each pattern in order, the
first match over the entire document is tried. -/
def extractEffectiveDateAmended (pages_text : List String) : Option String :=
  let full_text := if pages_text.isEmpty then "" else joinNLStrings (pages_text.take 3)
  let date_candidates :=
    DATE_PATTERNS.flatMap (fun pat => reFinditer pat full_text.toList)
  match firstSome (fun cand => try_parse_date_to_iso ⟨cand⟩) date_candidates with
  | some iso => some iso
  | none =>
    firstSome
      (fun pat =>
        (reFinditer pat (joinNLStrings pages_text).toList).head?.bind
          (fun m => try_parse_date_to_iso ⟨m⟩))
      DATE_PATTERNS

theorem returnFirstParsed_eq_firstSome (l : List (List Char)) :
    returnFirstParsed l =
      firstSome (fun cand => try_parse_date_to_iso ⟨cand⟩) l := by
  induction l with
  | nil => rfl
  | cons c rest ih =>
    cases h : try_parse_date_to_iso ⟨c⟩ <;>
      simp [returnFirstParsed, firstSome, h, ih]

theorem returnFirstParsed_guard (L : List (List Char)) :
    (if L.isEmpty then none else returnFirstParsed L) = returnFirstParsed L := by
  cases L <;> simp [returnFirstParsed]

theorem fallbackScan_eq_firstSome
    (ps : List (Option Char → List Char → Option (List Char × List Char)))
    (doc : List Char) :
    fallbackScan ps doc =
      firstSome
        (fun pat =>
          (reFinditer pat doc).head?.bind (fun m => try_parse_date_to_iso ⟨m⟩))
        ps := by
  induction ps with
  | nil => rfl
  | cons p rest ih =>
    cases hh : (reFinditer p doc).head? with
    | none => simp [fallbackScan, firstSome, hh, ih]
    | some m =>
      cases hp : try_parse_date_to_iso ⟨m⟩ <;>
        simp [fallbackScan, firstSome, hh, hp, ih]

theorem foldl_append_eq_flatMap (r : List Char) :
    DATE_PATTERNS.foldl (fun acc pat => acc ++ reFinditer pat r) [] =
      DATE_PATTERNS.flatMap (fun pat => reFinditer pat r) := by
  simp [DATE_PATTERNS, List.flatMap]

/-- **C5 (counterexample).**  The claimed cue-restricted, appearance-order
extraction disagrees with the source on two single-page documents: with a
cue phrase present the source still takes the earlier date outside the cue
region ("2024-01-05" vs the claimed "2025-03-01"), and without a cue the
source takes the month-name date because candidates are collected pattern
by pattern, not in order of appearance ("2024-01-02" vs the claimed
"2024-03-04"). -/
theorem extract_effective_date_counterexample :
    extract_effective_date
        ["Signed on 2024-01-05.\nThis agreement is effective as of 2025-03-01."] =
      some "2024-01-05" ∧
    extractEffectiveDateClaimed
        ["Signed on 2024-01-05.\nThis agreement is effective as of 2025-03-01."] =
      some "2025-03-01" ∧
    extract_effective_date ["On 2024-03-04 and January 2, 2024"] =
      some "2024-01-02" ∧
    extractEffectiveDateClaimed ["On 2024-03-04 and January 2, 2024"] =
      some "2024-03-04" := by
  refine ⟨?_, ?_, ?_, ?_⟩ <;> decide

/-- **C5 (amended).**  For every sequence of page texts,
`extract_effective_date` behaves as the amended description says: the cue
phrases play no role; the candidates of the first three pages are
collected pattern by pattern (all matches of each pattern in turn, not in
order of appearance), and the first one that parses is returned in ISO
form; if none parses, each pattern's first match over the entire document
is tried in turn; otherwise the result is null. -/
theorem extract_effective_date_amended_eq (pages_text : List String) :
    extract_effective_date pages_text = extractEffectiveDateAmended pages_text := by
  simp only [extract_effective_date, extractEffectiveDateAmended]
  rw [returnFirstParsed_guard, returnFirstParsed_eq_firstSome,
    foldl_append_eq_flatMap, fallbackScan_eq_firstSome]

/-! ### Heap model for the auto-fixer (aliasing and in-place mutation) -/

/-- Heap values: Python objects as stored in memory.  Lists and dicts hold
the addresses of their elements, so aliasing and in-place mutation are
representable. -/
inductive HVal where
  | hnone
  | hint (n : Int)
  | hstr (s : String)
  | hlist (elems : List Nat)
  | hdict (fields : List (String × Nat))
deriving DecidableEq, Repr

/-- Addresses a stored value refers to directly. -/
def childrenH : HVal → List Nat
  | .hlist es => es
  | .hdict fs => fs.map (fun p => p.2)
  | _ => []

/-- A heap: an association of addresses to values plus the next free
address. -/
structure Heap where
  mem : List (Nat × HVal)
  next : Nat
deriving DecidableEq, Repr

/-- Read the object stored at an address. -/
def lookupH (h : Heap) (a : Nat) : Option HVal :=
  (h.mem.find? (fun p => p.1 == a)).map (fun p => p.2)

/-- Allocate a new object at a fresh address. -/
def allocH (h : Heap) (v : HVal) : Heap × Nat :=
  (⟨(h.next, v) :: h.mem, h.next + 1⟩, h.next)

/-- Replace the binding of one address (first occurrence). -/
def setMemH : List (Nat × HVal) → Nat → HVal → List (Nat × HVal)
  | [], _, _ => []
  | p :: rest, a, v => if p.1 == a then (a, v) :: rest else p :: setMemH rest a v

/-- In-place mutation of the object stored at an address. -/
def setH (h : Heap) (a : Nat) (v : HVal) : Heap :=
  ⟨setMemH h.mem a v, h.next⟩

/-- Dict field access (`d.get(k)` / `k in d` on the field list). -/
def hdictFind (fs : List (String × Nat)) (k : String) : Option Nat :=
  (fs.find? (fun p => p.1 == k)).map (fun p => p.2)

/-- Dict field assignment on the field list: replace the existing key or
append a new one. -/
def hdictSet : List (String × Nat) → String → Nat → List (String × Nat)
  | [], k, a => [(k, a)]
  | p :: rest, k, a => if p.1 == k then (k, a) :: rest else p :: hdictSet rest k a

/-- Well-formed heap: every bound address and every referenced address is
below the allocation frontier. -/
def WFH (h : Heap) : Prop :=
  ∀ p ∈ h.mem, p.1 < h.next ∧ ∀ b ∈ childrenH p.2, b < h.next

instance : Decidable (WFH h) := by
  unfold WFH; infer_instance

/-- Python truthiness of a stored value. -/
def truthyH : HVal → Bool
  | .hnone => false
  | .hint n => n ≠ 0
  | .hstr s => s ≠ ""
  | .hlist es => !es.isEmpty
  | .hdict fs => !fs.isEmpty

mutual

/-- Python `repr` of a stored object, fuel-bounded (string escaping is
modelled up to the surrounding quotes). -/
def reprH : Nat → Heap → Nat → Option String
  | 0, _, _ => none
  | Nat.succ fuel, h, a =>
    match lookupH h a with
    | none => none
    | some .hnone => some "None"
    | some (.hint n) => some (toString n)
    | some (.hstr s) => some ("\x27" ++ s ++ "\x27")
    | some (.hlist es) =>
      match reprListH fuel h es with
      | none => none
      | some parts => some ("[" ++ String.intercalate ", " parts ++ "]")
    | some (.hdict fs) =>
      match reprDictH fuel h fs with
      | none => none
      | some parts => some ("\x7b" ++ String.intercalate ", " parts ++ "\x7d")

def reprListH : Nat → Heap → List Nat → Option (List String)
  | 0, _, _ => none
  | Nat.succ _, _, [] => some []
  | Nat.succ fuel, h, a :: as =>
    match reprH fuel h a with
    | none => none
    | some s =>
      match reprListH fuel h as with
      | none => none
      | some ss => some (s :: ss)

def reprDictH : Nat → Heap → List (String × Nat) → Option (List String)
  | 0, _, _ => none
  | Nat.succ _, _, [] => some []
  | Nat.succ fuel, h, p :: ps =>
    match reprH fuel h p.2 with
    | none => none
    | some s =>
      match reprDictH fuel h ps with
      | none => none
      | some ss => some (("\x27" ++ p.1 ++ "\x27: " ++ s) :: ss)

end

/-- Python `str` of a stored object (`str` of a string is the string
itself, containers render through `repr`). -/
def pyStrH (fuel : Nat) (h : Heap) (a : Nat) : Option String :=
  match lookupH h a with
  | none => none
  | some .hnone => some "None"
  | some (.hint n) => some (toString n)
  | some (.hstr s) => some s
  | some (.hlist _) => reprH fuel h a
  | some (.hdict _) => reprH fuel h a

mutual

/-- `copy.deepcopy`, fuel-bounded: every reachable object is re-allocated
at a fresh address and existing bindings are never modified (sharing
inside the copied structure is not memoised, which is observationally
equal for the tree-shaped documents at hand; exhausted fuel models a
failed copy). -/
def deepcopyH : Nat → Heap → Nat → Heap × Option Nat
  | 0, h, _ => (h, none)
  | Nat.succ fuel, h, a =>
    match lookupH h a with
    | none => (h, none)
    | some .hnone => ((allocH h .hnone).1, some (allocH h .hnone).2)
    | some (.hint n) => ((allocH h (.hint n)).1, some (allocH h (.hint n)).2)
    | some (.hstr s) => ((allocH h (.hstr s)).1, some (allocH h (.hstr s)).2)
    | some (.hlist es) =>
      match deepcopyListH fuel h es with
      | (h1, none) => (h1, none)
      | (h1, some es2) => ((allocH h1 (.hlist es2)).1, some (allocH h1 (.hlist es2)).2)
    | some (.hdict fs) =>
      match deepcopyDictH fuel h fs with
      | (h1, none) => (h1, none)
      | (h1, some fs2) => ((allocH h1 (.hdict fs2)).1, some (allocH h1 (.hdict fs2)).2)

def deepcopyListH : Nat → Heap → List Nat → Heap × Option (List Nat)
  | 0, h, _ => (h, none)
  | Nat.succ _, h, [] => (h, some [])
  | Nat.succ fuel, h, a :: as =>
    match deepcopyH fuel h a with
    | (h1, none) => (h1, none)
    | (h1, some a2) =>
      match deepcopyListH fuel h1 as with
      | (h2, none) => (h2, none)
      | (h2, some as2) => (h2, some (a2 :: as2))

def deepcopyDictH : Nat → Heap → List (String × Nat) → Heap × Option (List (String × Nat))
  | 0, h, _ => (h, none)
  | Nat.succ _, h, [] => (h, some [])
  | Nat.succ fuel, h, p :: ps =>
    match deepcopyH fuel h p.2 with
    | (h1, none) => (h1, none)
    | (h1, some b) =>
      match deepcopyDictH fuel h1 ps with
      | (h2, none) => (h2, none)
      | (h2, some ps2) => (h2, some ((p.1, b) :: ps2))

end

/-- `obj[k] = value` for a fresh scalar or freshly built value: allocate
it and mutate the dict object in place; Python raises `TypeError` when
`obj` is not a dict (`false` flag, heap unchanged). -/
def hDictSetFresh (h : Heap) (obj : Nat) (k : String) (v : HVal) : Heap × Bool :=
  match lookupH h obj with
  | some (.hdict fs) =>
    (setH (allocH h v).1 obj (.hdict (hdictSet fs k (allocH h v).2)), true)
  | _ => (h, false)

/-- Heap version of auto-fix step 1 (the `effective_date` rule).  For a
non-dict document the very first key-membership test (or the later
`.get`) raises before anything is written, so the failure case returns
the heap unchanged. -/
def hFixEffectiveDate (fuel : Nat) (h : Heap) (c : Nat) : Heap × Bool :=
  match lookupH h c with
  | some (.hdict fs) =>
    match hdictFind fs "effective_date" with
    | none => (h, true)
    | some da =>
      match lookupH h da with
      | none => (h, false)
      | some .hnone => (h, true)
      | some _ =>
        match pyStrH fuel h da with
        | none => (h, false)
        | some date_str =>
          if re_match_iso_dollar date_str then (h, true)
          else hDictSetFresh h c "effective_date" .hnone
  | _ => (h, false)

/-- Truthiness of `s.get(clauses)` for a section dict with fields `gs`. -/
def hKeepSection (h : Heap) (gs : List (String × Nat)) : Bool :=
  match hdictFind gs "clauses" with
  | none => false
  | some ca =>
    match lookupH h ca with
    | none => false
    | some v => truthyH v

/-- The filter `[s for s in cleaned_data[sections] if s.get(clauses)]`
over the element addresses: `none` when an element is not a dict
(`s.get` raises before the new list is assigned). -/
def hFilterSections (h : Heap) : List Nat → Option (List Nat)
  | [] => some []
  | s :: ss =>
    match lookupH h s with
    | some (.hdict gs) =>
      match hFilterSections h ss with
      | none => none
      | some rest => some (if hKeepSection h gs then s :: rest else rest)
    | _ => none

/-- Heap version of auto-fix step 2: bind `sections` to a freshly
allocated filtered list.  Iterating a non-list raises — except for the
empty string and the empty dict, which iterate to nothing and assign an
empty list. -/
def hFilterSectionsStep (h : Heap) (c : Nat) : Heap × Bool :=
  match lookupH h c with
  | some (.hdict fs) =>
    match hdictFind fs "sections" with
    | none => (h, true)
    | some sa =>
      match lookupH h sa with
      | some (.hlist es) =>
        match hFilterSections h es with
        | none => (h, false)
        | some kept => hDictSetFresh h c "sections" (.hlist kept)
      | some (.hstr s) =>
        if s = "" then hDictSetFresh h c "sections" (.hlist []) else (h, false)
      | some (.hdict gs) =>
        if gs.isEmpty then hDictSetFresh h c "sections" (.hlist []) else (h, false)
      | _ => (h, false)
  | _ => (h, false)

/-- Heap version of the label rule inside the clause loop. -/
def hFixClauseLabel (fuel : Nat) (h : Heap) (cl : Nat) : Heap × Bool :=
  match lookupH h cl with
  | some (.hdict ds) =>
    match hdictFind ds "label" with
    | none => hDictSetFresh h cl "label" (.hstr "")
    | some la =>
      match lookupH h la with
      | none => (h, false)
      | some .hnone => hDictSetFresh h cl "label" (.hstr "")
      | some _ =>
        match pyStrH fuel h la with
        | none => (h, false)
        | some s => hDictSetFresh h cl "label" (.hstr (pyStrip s))
  | _ => (h, false)

/-- Heap version of the text rule inside the clause loop (non-string
text is left alone by the `isinstance` guard). -/
def hFixClauseText (h : Heap) (cl : Nat) : Heap × Bool :=
  match lookupH h cl with
  | some (.hdict ds) =>
    match hdictFind ds "text" with
    | none => (h, true)
    | some ta =>
      match lookupH h ta with
      | some (.hstr s) => hDictSetFresh h cl "text" (.hstr (normalize_whitespace s))
      | _ => (h, true)
  | _ => (h, false)

/-- Heap version of one clause-loop body: `clause[index] = i` (raises on
a non-dict clause), then the label rule, then the text rule. -/
def hFixClause (fuel : Nat) (h : Heap) (i : Nat) (cl : Nat) : Heap × Bool :=
  match hDictSetFresh h cl "index" (.hint (Int.ofNat i)) with
  | (h1, false) => (h1, false)
  | (h1, true) =>
    match hFixClauseLabel fuel h1 cl with
    | (h2, false) => (h2, false)
    | (h2, true) => hFixClauseText h2 cl

/-- The enumerated clause loop, threading the heap. -/
def hFixClausesLoop (fuel : Nat) : Heap → Nat → List Nat → Heap × Bool
  | h, _, [] => (h, true)
  | h, i, cl :: cls =>
    match hFixClause fuel h i cl with
    | (h1, false) => (h1, false)
    | (h1, true) => hFixClausesLoop fuel h1 (i + 1) cls

/-- Heap version of the section-number rule.  A non-dict section makes
the membership test or the following `.get` raise with nothing written. -/
def hFixSectionNumber (fuel : Nat) (h : Heap) (s : Nat) : Heap × Bool :=
  match lookupH h s with
  | some (.hdict gs) =>
    match hdictFind gs "number" with
    | none => (h, true)
    | some na =>
      match lookupH h na with
      | none => (h, false)
      | some .hnone => (h, true)
      | some _ =>
        match pyStrH fuel h na with
        | none => (h, false)
        | some str => hDictSetFresh h s "number" (.hstr (pyStrip str))
  | _ => (h, false)

/-- Heap version of the clause loop of one section:
`section.get(clauses, [])`; enumerating a non-list raises on the first
element, except that the empty string and the empty dict enumerate to
nothing. -/
def hFixSectionClauses (fuel : Nat) (h : Heap) (s : Nat) : Heap × Bool :=
  match lookupH h s with
  | some (.hdict gs) =>
    match hdictFind gs "clauses" with
    | none => (h, true)
    | some ca =>
      match lookupH h ca with
      | some (.hlist cs) => hFixClausesLoop fuel h 0 cs
      | some (.hstr str) => if str = "" then (h, true) else (h, false)
      | some (.hdict ds) => if ds.isEmpty then (h, true) else (h, false)
      | _ => (h, false)
  | _ => (h, false)

/-- Heap version of one section-loop body. -/
def hFixSection (fuel : Nat) (h : Heap) (s : Nat) : Heap × Bool :=
  match hFixSectionNumber fuel h s with
  | (h1, false) => (h1, false)
  | (h1, true) => hFixSectionClauses fuel h1 s

/-- The section loop, threading the heap. -/
def hFixSectionsLoop (fuel : Nat) : Heap → List Nat → Heap × Bool
  | h, [] => (h, true)
  | h, s :: ss =>
    match hFixSection fuel h s with
    | (h1, false) => (h1, false)
    | (h1, true) => hFixSectionsLoop fuel h1 ss

/-- Heap version of auto-fix step 3: `cleaned_data.get(sections, [])` and
the section loop. -/
def hSectionIter (fuel : Nat) (h : Heap) (c : Nat) : Heap × Bool :=
  match lookupH h c with
  | some (.hdict fs) =>
    match hdictFind fs "sections" with
    | none => (h, true)
    | some sa =>
      match lookupH h sa with
      | some (.hlist es) => hFixSectionsLoop fuel h es
      | some (.hstr s) => if s = "" then (h, true) else (h, false)
      | some (.hdict gs) => if gs.isEmpty then (h, true) else (h, false)
      | _ => (h, false)
  | _ => (h, false)

/-- The three mutation steps of `clean_and_validate_contract` run on the
deep copy; a raise anywhere aborts with the heap as mutated so far. -/
def hAutoFixPhase (fuel : Nat) (h : Heap) (c : Nat) : Heap × Bool :=
  match hFixEffectiveDate fuel h c with
  | (h1, false) => (h1, false)
  | (h1, true) =>
    match hFilterSectionsStep h1 c with
    | (h2, false) => (h2, false)
    | (h2, true) => hSectionIter fuel h2 c

/-- Heap-level `clean_and_validate_contract`: deep-copy the document at
`a`, then run the three mutation steps on the copy.  The result is the
final heap together with the address of the cleaned document, or `none`
when the call raised; the heap is returned in either case, so partial
mutation would be visible. -/
def clean_and_validate_contract_heap (h : Heap) (a : Nat) : Heap × Option Nat :=
  match deepcopyH (h.mem.length + 1) h a with
  | (h1, none) => (h1, none)
  | (h1, some c) =>
    match hAutoFixPhase (h.mem.length + 1) h1 c with
    | (h2, true) => (h2, some c)
    | (h2, false) => (h2, none)

/-- The `clauses` value of a section is collection-shaped (absent or a
real list, not a stray scalar). -/
def sectionShapeOk (s : RawSection) : Bool :=
  match s.clauses with
  | some (.scalar _) => false
  | _ => true

/-- Structurally well-shaped document for the auto-fixer: the `sections`
value, when present, is a real list, and every section surviving the
truthiness filter has a real list (or nothing) under `clauses`.  These
are exactly the collection-shaped expectations of
`clean_and_validate_contract`. -/
def structurallyWellShaped (data : RawContract) : Bool :=
  match data.sections with
  | none => true
  | some (.scalar _) => false
  | some (.cl ss) =>
    (ss.filter fun s => clausesTruthy s.clauses).all sectionShapeOk

/-- Frame invariant relative to the pre-call heap `h₀` and its allocation
frontier `n₀`: bindings below `n₀` are exactly those of `h₀`, the
frontier only grows, and every binding at or above `n₀` refers only to
addresses at or above `n₀` (the fresh copy has no pointers back into the
original document). -/
structure HFrame (h₀ : Heap) (n₀ : Nat) (h : Heap) : Prop where
  ext : ∀ x, x < n₀ → lookupH h x = lookupH h₀ x
  mono : n₀ ≤ h.next
  nb : ∀ p ∈ h.mem, n₀ ≤ p.1 → ∀ b ∈ childrenH p.2, n₀ ≤ b

theorem lookupH_mem {h : Heap} {a : Nat} {v : HVal}
    (hl : lookupH h a = some v) : (a, v) ∈ h.mem := by
  unfold lookupH at hl
  cases hf : h.mem.find? (fun p => p.1 == a) with
  | none => rw [hf] at hl; simp at hl
  | some p =>
    rw [hf] at hl
    simp only [Option.map_some', Option.some.injEq] at hl
    have hmem := List.mem_of_find?_eq_some hf
    have h1 : p.1 = a := by simpa using List.find?_some hf
    have h2 : p.2 = v := hl
    have h3 : (a, v) = p := by rw [← h1, ← h2]
    rw [h3]
    exact hmem

theorem lookupH_alloc (h : Heap) (v : HVal) (x : Nat) (hx : x ≠ h.next) :
    lookupH (allocH h v).1 x = lookupH h x := by
  show (List.find? (fun p => p.1 == x) ((h.next, v) :: h.mem)).map (fun p => p.2) =
    (List.find? (fun p => p.1 == x) h.mem).map (fun p => p.2)
  rw [List.find?_cons_of_neg h.mem (by simpa using Ne.symm hx)]

theorem find?_setMemH_ne (mem : List (Nat × HVal)) (a : Nat) (v : HVal)
    (x : Nat) (hx : x ≠ a) :
    (setMemH mem a v).find? (fun p => p.1 == x) =
      mem.find? (fun p => p.1 == x) := by
  induction mem with
  | nil => rfl
  | cons p rest ih =>
    by_cases hpa : (p.1 == a) = true
    · have hp1 : p.1 = a := by simpa using hpa
      rw [setMemH, if_pos hpa]
      rw [List.find?_cons_of_neg rest (by simpa using Ne.symm hx),
        List.find?_cons_of_neg rest (by simp [hp1]; exact Ne.symm hx)]
    · rw [setMemH, if_neg hpa]
      by_cases hpx : (p.1 == x) = true
      · rw [List.find?_cons_of_pos (setMemH rest a v) hpx,
          List.find?_cons_of_pos rest hpx]
      · rw [List.find?_cons_of_neg (setMemH rest a v) hpx,
          List.find?_cons_of_neg rest hpx]
        exact ih

theorem lookupH_setH_ne (h : Heap) (a : Nat) (v : HVal) (x : Nat)
    (hx : x ≠ a) : lookupH (setH h a v) x = lookupH h x := by
  show (List.find? (fun p => p.1 == x) (setMemH h.mem a v)).map (fun p => p.2) =
    (List.find? (fun p => p.1 == x) h.mem).map (fun p => p.2)
  rw [find?_setMemH_ne h.mem a v x hx]

theorem mem_setMemH {mem : List (Nat × HVal)} {a : Nat} {v : HVal}
    {q : Nat × HVal} (hq : q ∈ setMemH mem a v) : q = (a, v) ∨ q ∈ mem := by
  induction mem with
  | nil => simp [setMemH] at hq
  | cons p rest ih =>
    rw [setMemH] at hq
    by_cases hpa : (p.1 == a) = true
    · rw [if_pos hpa] at hq
      rcases List.mem_cons.mp hq with h1 | h1
      · exact Or.inl h1
      · exact Or.inr (List.mem_cons.mpr (Or.inr h1))
    · rw [if_neg hpa] at hq
      rcases List.mem_cons.mp hq with h1 | h1
      · exact Or.inr (List.mem_cons.mpr (Or.inl h1))
      · rcases ih h1 with h2 | h2
        · exact Or.inl h2
        · exact Or.inr (List.mem_cons.mpr (Or.inr h2))

theorem HFrame_refl (h : Heap) (hwf : WFH h) : HFrame h h.next h := by
  refine ⟨fun x _ => rfl, le_refl _, ?_⟩
  intro p hp hge b _
  exact absurd (hwf p hp).1 (by omega)

theorem HFrame_alloc {h₀ : Heap} {n₀ : Nat} {h : Heap} (hf : HFrame h₀ n₀ h)
    (v : HVal) (hv : ∀ b ∈ childrenH v, n₀ ≤ b) :
    HFrame h₀ n₀ (allocH h v).1 ∧ n₀ ≤ (allocH h v).2 := by
  constructor
  · refine ⟨?_, ?_, ?_⟩
    · intro x hx
      have hxne : x ≠ h.next := by have := hf.mono; omega
      rw [lookupH_alloc h v x hxne]
      exact hf.ext x hx
    · show n₀ ≤ h.next + 1
      have := hf.mono; omega
    · intro p hp hge b hb
      rcases List.mem_cons.mp hp with h1 | h1
      · rw [h1] at hb; exact hv b hb
      · exact hf.nb p h1 hge b hb
  · show n₀ ≤ h.next
    exact hf.mono

theorem HFrame_set {h₀ : Heap} {n₀ : Nat} {h : Heap} (hf : HFrame h₀ n₀ h)
    (a : Nat) (v : HVal) (ha : n₀ ≤ a) (hv : ∀ b ∈ childrenH v, n₀ ≤ b) :
    HFrame h₀ n₀ (setH h a v) := by
  refine ⟨?_, hf.mono, ?_⟩
  · intro x hx
    have hxa : x ≠ a := by omega
    rw [lookupH_setH_ne h a v x hxa]
    exact hf.ext x hx
  · intro p hp hge b hb
    rcases mem_setMemH hp with h1 | h1
    · rw [h1] at hb; exact hv b hb
    · exact hf.nb p h1 hge b hb

theorem HFrame_lookup_children {h₀ : Heap} {n₀ : Nat} {h : Heap}
    (hf : HFrame h₀ n₀ h) {a : Nat} {v : HVal} (ha : n₀ ≤ a)
    (hl : lookupH h a = some v) : ∀ b ∈ childrenH v, n₀ ≤ b :=
  hf.nb (a, v) (lookupH_mem hl) ha

theorem hdictFind_mem_children {fs : List (String × Nat)} {k : String}
    {b : Nat} (hfind : hdictFind fs k = some b) :
    b ∈ childrenH (.hdict fs) := by
  unfold hdictFind at hfind
  cases hf : fs.find? (fun p => p.1 == k) with
  | none => rw [hf] at hfind; simp at hfind
  | some p =>
    rw [hf] at hfind
    simp only [Option.map_some', Option.some.injEq] at hfind
    have hmem := List.mem_of_find?_eq_some hf
    show b ∈ fs.map (fun p => p.2)
    exact List.mem_map.mpr ⟨p, hmem, hfind⟩

theorem hdictSet_children {fs : List (String × Nat)} {k : String} {a : Nat}
    {b : Nat} (hb : b ∈ childrenH (.hdict (hdictSet fs k a))) :
    b = a ∨ b ∈ childrenH (.hdict fs) := by
  simp only [childrenH] at hb ⊢
  induction fs with
  | nil =>
    rw [hdictSet] at hb
    simp at hb
    exact Or.inl hb
  | cons p rest ih =>
    rw [hdictSet] at hb
    by_cases hpk : (p.1 == k) = true
    · rw [if_pos hpk] at hb
      simp only [List.map_cons, List.mem_cons] at hb
      rcases hb with h1 | h1
      · exact Or.inl h1
      · exact Or.inr (by simp only [List.map_cons, List.mem_cons]; exact Or.inr h1)
    · rw [if_neg hpk] at hb
      simp only [List.map_cons, List.mem_cons] at hb
      rcases hb with h1 | h1
      · exact Or.inr (by simp only [List.map_cons, List.mem_cons]; exact Or.inl h1)
      · rcases ih h1 with h2 | h2
        · exact Or.inl h2
        · exact Or.inr (by simp only [List.map_cons, List.mem_cons]; exact Or.inr h2)

theorem HFrame_hDictSetFresh {h₀ : Heap} {n₀ : Nat} {h : Heap}
    (hf : HFrame h₀ n₀ h) (obj : Nat) (k : String) (v : HVal)
    (hobj : n₀ ≤ obj) (hv : ∀ b ∈ childrenH v, n₀ ≤ b) :
    HFrame h₀ n₀ (hDictSetFresh h obj k v).1 := by
  unfold hDictSetFresh
  cases hl : lookupH h obj with
  | none => exact hf
  | some w =>
    cases w with
    | hdict fs =>
      have hchild := HFrame_lookup_children hf hobj hl
      obtain ⟨hfa, hva⟩ := HFrame_alloc hf v hv
      simp only
      apply HFrame_set hfa obj _ hobj
      intro b hb
      rcases hdictSet_children hb with h1 | h1
      · rw [h1]; exact hva
      · exact hchild b h1
    | hnone => exact hf
    | hint n => exact hf
    | hstr s => exact hf
    | hlist es => exact hf

theorem deepcopyH_frame {h₀ : Heap} {n₀ : Nat} (fuel : Nat) :
    (∀ h a, HFrame h₀ n₀ h →
      HFrame h₀ n₀ (deepcopyH fuel h a).1 ∧
        ∀ x, (deepcopyH fuel h a).2 = some x → n₀ ≤ x) ∧
    (∀ h as, HFrame h₀ n₀ h →
      HFrame h₀ n₀ (deepcopyListH fuel h as).1 ∧
        ∀ xs, (deepcopyListH fuel h as).2 = some xs → ∀ x ∈ xs, n₀ ≤ x) ∧
    (∀ h ps, HFrame h₀ n₀ h →
      HFrame h₀ n₀ (deepcopyDictH fuel h ps).1 ∧
        ∀ qs, (deepcopyDictH fuel h ps).2 = some qs → ∀ q ∈ qs, n₀ ≤ q.2) := by
  induction fuel with
  | zero =>
    refine ⟨fun h a hf => ⟨hf, ?_⟩, fun h as hf => ⟨hf, ?_⟩, fun h ps hf => ⟨hf, ?_⟩⟩
    · intro x hx; simp [deepcopyH] at hx
    · intro xs hxs; simp [deepcopyListH] at hxs
    · intro qs hqs; simp [deepcopyDictH] at hqs
  | succ fuel ih =>
    obtain ⟨ihH, ihL, ihD⟩ := ih
    refine ⟨?_, ?_, ?_⟩
    · intro h a hf
      cases hl : lookupH h a with
      | none =>
        have he : deepcopyH (Nat.succ fuel) h a = (h, none) := by
          simp only [deepcopyH, hl]
        rw [he]
        exact ⟨hf, by intro x hx; simp at hx⟩
      | some w =>
        cases w with
        | hnone =>
          have he : deepcopyH (Nat.succ fuel) h a =
              ((allocH h .hnone).1, some (allocH h .hnone).2) := by
            simp only [deepcopyH, hl]
          rw [he]
          obtain ⟨hfa, hva⟩ := HFrame_alloc hf .hnone
            (by intro b hb; simp [childrenH] at hb)
          refine ⟨hfa, ?_⟩
          intro x hx
          simp only [Option.some.injEq] at hx
          rw [← hx]; exact hva
        | hint n =>
          have he : deepcopyH (Nat.succ fuel) h a =
              ((allocH h (.hint n)).1, some (allocH h (.hint n)).2) := by
            simp only [deepcopyH, hl]
          rw [he]
          obtain ⟨hfa, hva⟩ := HFrame_alloc hf (.hint n)
            (by intro b hb; simp [childrenH] at hb)
          refine ⟨hfa, ?_⟩
          intro x hx
          simp only [Option.some.injEq] at hx
          rw [← hx]; exact hva
        | hstr s =>
          have he : deepcopyH (Nat.succ fuel) h a =
              ((allocH h (.hstr s)).1, some (allocH h (.hstr s)).2) := by
            simp only [deepcopyH, hl]
          rw [he]
          obtain ⟨hfa, hva⟩ := HFrame_alloc hf (.hstr s)
            (by intro b hb; simp [childrenH] at hb)
          refine ⟨hfa, ?_⟩
          intro x hx
          simp only [Option.some.injEq] at hx
          rw [← hx]; exact hva
        | hlist es =>
          obtain ⟨hfl, hxs⟩ := ihL h es hf
          cases hdl : deepcopyListH fuel h es with
          | mk h1 r =>
            rw [hdl] at hfl hxs
            cases r with
            | none =>
              have he : deepcopyH (Nat.succ fuel) h a = (h1, none) := by
                simp only [deepcopyH, hl, hdl]
              rw [he]
              exact ⟨hfl, by intro x hx; simp at hx⟩
            | some es2 =>
              have hes2 : ∀ x ∈ es2, n₀ ≤ x := hxs es2 rfl
              have he : deepcopyH (Nat.succ fuel) h a =
                  ((allocH h1 (.hlist es2)).1, some (allocH h1 (.hlist es2)).2) := by
                simp only [deepcopyH, hl, hdl]
              rw [he]
              obtain ⟨hfa, hva⟩ := HFrame_alloc hfl (.hlist es2)
                (by intro b hb; exact hes2 b hb)
              refine ⟨hfa, ?_⟩
              intro x hx
              simp only [Option.some.injEq] at hx
              rw [← hx]; exact hva
        | hdict fs =>
          obtain ⟨hfd, hqs⟩ := ihD h fs hf
          cases hdd : deepcopyDictH fuel h fs with
          | mk h1 r =>
            rw [hdd] at hfd hqs
            cases r with
            | none =>
              have he : deepcopyH (Nat.succ fuel) h a = (h1, none) := by
                simp only [deepcopyH, hl, hdd]
              rw [he]
              exact ⟨hfd, by intro x hx; simp at hx⟩
            | some fs2 =>
              have hfs2 : ∀ q ∈ fs2, n₀ ≤ q.2 := hqs fs2 rfl
              have he : deepcopyH (Nat.succ fuel) h a =
                  ((allocH h1 (.hdict fs2)).1, some (allocH h1 (.hdict fs2)).2) := by
                simp only [deepcopyH, hl, hdd]
              rw [he]
              obtain ⟨hfa, hva⟩ := HFrame_alloc hfd (.hdict fs2)
                (by
                  intro b hb
                  simp only [childrenH, List.mem_map] at hb
                  obtain ⟨q, hq, hq2⟩ := hb
                  rw [← hq2]
                  exact hfs2 q hq)
              refine ⟨hfa, ?_⟩
              intro x hx
              simp only [Option.some.injEq] at hx
              rw [← hx]; exact hva
    · intro h as hf
      cases as with
      | nil =>
        have he : deepcopyListH (Nat.succ fuel) h [] = (h, some []) := by
          simp only [deepcopyListH]
        rw [he]
        refine ⟨hf, ?_⟩
        intro xs hxs
        simp only [Option.some.injEq] at hxs
        rw [← hxs]
        intro x hx
        simp at hx
      | cons a rest =>
        obtain ⟨hf1, hx1⟩ := ihH h a hf
        cases hda : deepcopyH fuel h a with
        | mk h1 r =>
          rw [hda] at hf1 hx1
          cases r with
          | none =>
            have he : deepcopyListH (Nat.succ fuel) h (a :: rest) = (h1, none) := by
              simp only [deepcopyListH, hda]
            rw [he]
            exact ⟨hf1, by intro xs hxs; simp at hxs⟩
          | some a2 =>
            have ha2 : n₀ ≤ a2 := hx1 a2 rfl
            obtain ⟨hf2, hx2⟩ := ihL h1 rest hf1
            cases hdr : deepcopyListH fuel h1 rest with
            | mk h2 rr =>
              rw [hdr] at hf2 hx2
              cases rr with
              | none =>
                have he : deepcopyListH (Nat.succ fuel) h (a :: rest) = (h2, none) := by
                  simp only [deepcopyListH, hda, hdr]
                rw [he]
                exact ⟨hf2, by intro xs hxs; simp at hxs⟩
              | some rest2 =>
                have he : deepcopyListH (Nat.succ fuel) h (a :: rest) =
                    (h2, some (a2 :: rest2)) := by
                  simp only [deepcopyListH, hda, hdr]
                rw [he]
                refine ⟨hf2, ?_⟩
                intro xs hxs
                simp only [Option.some.injEq] at hxs
                rw [← hxs]
                intro x hx
                rcases List.mem_cons.mp hx with h1x | h1x
                · rw [h1x]; exact ha2
                · exact hx2 rest2 rfl x h1x
    · intro h ps hf
      cases ps with
      | nil =>
        have he : deepcopyDictH (Nat.succ fuel) h [] = (h, some []) := by
          simp only [deepcopyDictH]
        rw [he]
        refine ⟨hf, ?_⟩
        intro qs hqs
        simp only [Option.some.injEq] at hqs
        rw [← hqs]
        intro q hq
        simp at hq
      | cons p rest =>
        obtain ⟨hf1, hx1⟩ := ihH h p.2 hf
        cases hda : deepcopyH fuel h p.2 with
        | mk h1 r =>
          rw [hda] at hf1 hx1
          cases r with
          | none =>
            have he : deepcopyDictH (Nat.succ fuel) h (p :: rest) = (h1, none) := by
              simp only [deepcopyDictH, hda]
            rw [he]
            exact ⟨hf1, by intro qs hqs; simp at hqs⟩
          | some b =>
            have hb : n₀ ≤ b := hx1 b rfl
            obtain ⟨hf2, hx2⟩ := ihD h1 rest hf1
            cases hdr : deepcopyDictH fuel h1 rest with
            | mk h2 rr =>
              rw [hdr] at hf2 hx2
              cases rr with
              | none =>
                have he : deepcopyDictH (Nat.succ fuel) h (p :: rest) = (h2, none) := by
                  simp only [deepcopyDictH, hda, hdr]
                rw [he]
                exact ⟨hf2, by intro qs hqs; simp at hqs⟩
              | some rest2 =>
                have he : deepcopyDictH (Nat.succ fuel) h (p :: rest) =
                    (h2, some ((p.1, b) :: rest2)) := by
                  simp only [deepcopyDictH, hda, hdr]
                rw [he]
                refine ⟨hf2, ?_⟩
                intro qs hqs
                simp only [Option.some.injEq] at hqs
                rw [← hqs]
                intro q hq
                rcases List.mem_cons.mp hq with h1q | h1q
                · rw [h1q]; exact hb
                · exact hx2 rest2 rfl q h1q

theorem HFrame_hFixEffectiveDate {h₀ : Heap} {n₀ : Nat} (fuel : Nat)
    {h : Heap} {c : Nat} (hf : HFrame h₀ n₀ h) (hc : n₀ ≤ c) :
    HFrame h₀ n₀ (hFixEffectiveDate fuel h c).1 := by
  unfold hFixEffectiveDate
  split
  · split
    · exact hf
    · split
      · exact hf
      · exact hf
      · split
        · exact hf
        · split
          · exact hf
          · apply HFrame_hDictSetFresh hf c "effective_date" .hnone hc
            intro b hb
            simp [childrenH] at hb
  · exact hf

theorem hFilterSections_subset {h : Heap} {es kept : List Nat}
    (hk : hFilterSections h es = some kept) : ∀ x ∈ kept, x ∈ es := by
  induction es generalizing kept with
  | nil =>
    rw [hFilterSections] at hk
    simp only [Option.some.injEq] at hk
    rw [← hk]
    intro x hx
    simp at hx
  | cons s ss ih =>
    rw [hFilterSections] at hk
    split at hk
    next gs heq =>
      split at hk
      · exact absurd hk (by simp)
      next rest hrest =>
        simp only [Option.some.injEq] at hk
        rw [← hk]
        intro x hx
        by_cases hkeep : (hKeepSection h gs) = true
        · rw [if_pos hkeep] at hx
          rcases List.mem_cons.mp hx with h1 | h1
          · rw [h1]; exact List.mem_cons_self s ss
          · exact List.mem_cons.mpr (Or.inr (ih hrest x h1))
        · rw [if_neg hkeep] at hx
          exact List.mem_cons.mpr (Or.inr (ih hrest x hx))
    · exact absurd hk (by simp)

theorem HFrame_hFilterSectionsStep {h₀ : Heap} {n₀ : Nat}
    {h : Heap} {c : Nat} (hf : HFrame h₀ n₀ h) (hc : n₀ ≤ c) :
    HFrame h₀ n₀ (hFilterSectionsStep h c).1 := by
  unfold hFilterSectionsStep
  split
  next fs hl =>
    split
    · exact hf
    next sa hfind =>
      have hsa : n₀ ≤ sa :=
        HFrame_lookup_children hf hc hl sa (hdictFind_mem_children hfind)
      split
      next es hls =>
        have hes : ∀ x ∈ es, n₀ ≤ x :=
          HFrame_lookup_children hf hsa hls
        split
        · exact hf
        next kept hkept =>
          apply HFrame_hDictSetFresh hf c "sections" (.hlist kept) hc
          intro b hb
          exact hes b (hFilterSections_subset hkept b hb)
      next s hls =>
        split
        · apply HFrame_hDictSetFresh hf c "sections" (.hlist []) hc
          intro b hb
          simp [childrenH] at hb
        · exact hf
      next gs hls =>
        split
        · apply HFrame_hDictSetFresh hf c "sections" (.hlist []) hc
          intro b hb
          simp [childrenH] at hb
        · exact hf
      next => exact hf
  next => exact hf

theorem HFrame_hFixClauseLabel {h₀ : Heap} {n₀ : Nat} (fuel : Nat)
    {h : Heap} {cl : Nat} (hf : HFrame h₀ n₀ h) (hcl : n₀ ≤ cl) :
    HFrame h₀ n₀ (hFixClauseLabel fuel h cl).1 := by
  unfold hFixClauseLabel
  split
  next ds hl =>
    split
    · apply HFrame_hDictSetFresh hf cl "label" (.hstr "") hcl
      intro b hb
      simp [childrenH] at hb
    next la hfind =>
      split
      · exact hf
      · apply HFrame_hDictSetFresh hf cl "label" (.hstr "") hcl
        intro b hb
        simp [childrenH] at hb
      · split
        · exact hf
        next s hps =>
          apply HFrame_hDictSetFresh hf cl "label" (.hstr (pyStrip s)) hcl
          intro b hb
          simp [childrenH] at hb
  next => exact hf

theorem HFrame_hFixClauseText {h₀ : Heap} {n₀ : Nat}
    {h : Heap} {cl : Nat} (hf : HFrame h₀ n₀ h) (hcl : n₀ ≤ cl) :
    HFrame h₀ n₀ (hFixClauseText h cl).1 := by
  unfold hFixClauseText
  split
  next ds hl =>
    split
    · exact hf
    next ta hfind =>
      split
      next s hts =>
        apply HFrame_hDictSetFresh hf cl "text" (.hstr (normalize_whitespace s)) hcl
        intro b hb
        simp [childrenH] at hb
      next => exact hf
  next => exact hf

theorem HFrame_hFixClause {h₀ : Heap} {n₀ : Nat} (fuel : Nat)
    {h : Heap} {i cl : Nat} (hf : HFrame h₀ n₀ h) (hcl : n₀ ≤ cl) :
    HFrame h₀ n₀ (hFixClause fuel h i cl).1 := by
  unfold hFixClause
  split
  next h1 hd =>
    have hx := HFrame_hDictSetFresh hf cl "index" (.hint (Int.ofNat i)) hcl
      (by intro b hb; simp [childrenH] at hb)
    rw [hd] at hx
    exact hx
  next h1 hd =>
    have hf1 : HFrame h₀ n₀ h1 := by
      have hx := HFrame_hDictSetFresh hf cl "index" (.hint (Int.ofNat i)) hcl
        (by intro b hb; simp [childrenH] at hb)
      rw [hd] at hx
      exact hx
    split
    next h2 hlb =>
      have hx := HFrame_hFixClauseLabel fuel hf1 hcl
      rw [hlb] at hx
      exact hx
    next h2 hlb =>
      have hf2 : HFrame h₀ n₀ h2 := by
        have hx := HFrame_hFixClauseLabel fuel hf1 hcl
        rw [hlb] at hx
        exact hx
      exact HFrame_hFixClauseText hf2 hcl

theorem HFrame_hFixClausesLoop {h₀ : Heap} {n₀ : Nat} (fuel : Nat)
    {cs : List Nat} (hcs : ∀ x ∈ cs, n₀ ≤ x) :
    ∀ (h : Heap) (i : Nat), HFrame h₀ n₀ h →
      HFrame h₀ n₀ (hFixClausesLoop fuel h i cs).1 := by
  induction cs with
  | nil =>
    intro h i hf
    rw [hFixClausesLoop]
    exact hf
  | cons cl rest ih =>
    intro h i hf
    rw [hFixClausesLoop]
    have hcl : n₀ ≤ cl := hcs cl (by simp)
    split
    next h1 hd =>
      have hx := HFrame_hFixClause (i := i) fuel hf hcl
      rw [hd] at hx
      exact hx
    next h1 hd =>
      have hf1 : HFrame h₀ n₀ h1 := by
        have hx := HFrame_hFixClause (i := i) fuel hf hcl
        rw [hd] at hx
        exact hx
      exact ih (fun x hx => hcs x (by simp [hx])) h1 (i + 1) hf1

theorem HFrame_hFixSectionNumber {h₀ : Heap} {n₀ : Nat} (fuel : Nat)
    {h : Heap} {s : Nat} (hf : HFrame h₀ n₀ h) (hs : n₀ ≤ s) :
    HFrame h₀ n₀ (hFixSectionNumber fuel h s).1 := by
  unfold hFixSectionNumber
  split
  next gs hl =>
    split
    · exact hf
    next na hfind =>
      split
      · exact hf
      · exact hf
      · split
        · exact hf
        next str hps =>
          apply HFrame_hDictSetFresh hf s "number" (.hstr (pyStrip str)) hs
          intro b hb
          simp [childrenH] at hb
  next => exact hf

theorem HFrame_hFixSectionClauses {h₀ : Heap} {n₀ : Nat} (fuel : Nat)
    {h : Heap} {s : Nat} (hf : HFrame h₀ n₀ h) (hs : n₀ ≤ s) :
    HFrame h₀ n₀ (hFixSectionClauses fuel h s).1 := by
  unfold hFixSectionClauses
  split
  next gs hl =>
    split
    · exact hf
    next ca hfind =>
      have hca : n₀ ≤ ca :=
        HFrame_lookup_children hf hs hl ca (hdictFind_mem_children hfind)
      split
      next cs hls =>
        have hcs : ∀ x ∈ cs, n₀ ≤ x := HFrame_lookup_children hf hca hls
        exact HFrame_hFixClausesLoop fuel hcs h 0 hf
      next str hls => split <;> exact hf
      next ds hls => split <;> exact hf
      next => exact hf
  next => exact hf

theorem HFrame_hFixSection {h₀ : Heap} {n₀ : Nat} (fuel : Nat)
    {h : Heap} {s : Nat} (hf : HFrame h₀ n₀ h) (hs : n₀ ≤ s) :
    HFrame h₀ n₀ (hFixSection fuel h s).1 := by
  unfold hFixSection
  split
  next h1 hd =>
    have hx := HFrame_hFixSectionNumber fuel hf hs
    rw [hd] at hx
    exact hx
  next h1 hd =>
    have hf1 : HFrame h₀ n₀ h1 := by
      have hx := HFrame_hFixSectionNumber fuel hf hs
      rw [hd] at hx
      exact hx
    exact HFrame_hFixSectionClauses fuel hf1 hs

theorem HFrame_hFixSectionsLoop {h₀ : Heap} {n₀ : Nat} (fuel : Nat)
    {ss : List Nat} (hss : ∀ x ∈ ss, n₀ ≤ x) :
    ∀ (h : Heap), HFrame h₀ n₀ h →
      HFrame h₀ n₀ (hFixSectionsLoop fuel h ss).1 := by
  induction ss with
  | nil =>
    intro h hf
    rw [hFixSectionsLoop]
    exact hf
  | cons s rest ih =>
    intro h hf
    rw [hFixSectionsLoop]
    have hs : n₀ ≤ s := hss s (by simp)
    split
    next h1 hd =>
      have hx := HFrame_hFixSection fuel hf hs
      rw [hd] at hx
      exact hx
    next h1 hd =>
      have hf1 : HFrame h₀ n₀ h1 := by
        have hx := HFrame_hFixSection fuel hf hs
        rw [hd] at hx
        exact hx
      exact ih (fun x hx => hss x (by simp [hx])) h1 hf1

theorem HFrame_hSectionIter {h₀ : Heap} {n₀ : Nat} (fuel : Nat)
    {h : Heap} {c : Nat} (hf : HFrame h₀ n₀ h) (hc : n₀ ≤ c) :
    HFrame h₀ n₀ (hSectionIter fuel h c).1 := by
  unfold hSectionIter
  split
  next fs hl =>
    split
    · exact hf
    next sa hfind =>
      have hsa : n₀ ≤ sa :=
        HFrame_lookup_children hf hc hl sa (hdictFind_mem_children hfind)
      split
      next es hls =>
        have hes : ∀ x ∈ es, n₀ ≤ x := HFrame_lookup_children hf hsa hls
        exact HFrame_hFixSectionsLoop fuel hes h hf
      next str hls => split <;> exact hf
      next gs hls => split <;> exact hf
      next => exact hf
  next => exact hf

theorem HFrame_hAutoFixPhase {h₀ : Heap} {n₀ : Nat} (fuel : Nat)
    {h : Heap} {c : Nat} (hf : HFrame h₀ n₀ h) (hc : n₀ ≤ c) :
    HFrame h₀ n₀ (hAutoFixPhase fuel h c).1 := by
  unfold hAutoFixPhase
  split
  next h1 hd =>
    have hx := HFrame_hFixEffectiveDate fuel hf hc
    rw [hd] at hx
    exact hx
  next h1 hd =>
    have hf1 : HFrame h₀ n₀ h1 := by
      have hx := HFrame_hFixEffectiveDate fuel hf hc
      rw [hd] at hx
      exact hx
    split
    next h2 hd2 =>
      have hx := HFrame_hFilterSectionsStep hf1 hc
      rw [hd2] at hx
      exact hx
    next h2 hd2 =>
      have hf2 : HFrame h₀ n₀ h2 := by
        have hx := HFrame_hFilterSectionsStep hf1 hc
        rw [hd2] at hx
        exact hx
      exact HFrame_hSectionIter fuel hf2 hc

theorem fixSectionList_isSome {l : List RawSection}
    (hl : ∀ s ∈ l, sectionShapeOk s = true) :
    (fixSectionList l).isSome = true := by
  induction l with
  | nil => rfl
  | cons s ss ih =>
    have hs := hl s (by simp)
    have hsome : (fixSection s).isSome = true := by
      obtain ⟨st, sn, sc⟩ := s
      cases sc with
      | none => rfl
      | some coll =>
        cases coll with
        | scalar v => simp [sectionShapeOk] at hs
        | cl cs => rfl
    rw [fixSectionList]
    split
    next hfs => rw [hfs] at hsome; simp at hsome
    next t hfs =>
      split
      next hrest =>
        have hx := ih (fun x hx => hl x (by simp [hx]))
        rw [hrest] at hx
        simp at hx
      next ts hrest => rfl

theorem autofix_total_of_wellShaped {data : RawContract}
    (hd : structurallyWellShaped data = true) :
    (clean_and_validate_contract data).isSome = true := by
  unfold clean_and_validate_contract cleanSectionsPass
  split
  next hnone => rfl
  next v hscalar =>
    have hds : data.sections = some (.scalar v) := hscalar
    rw [structurallyWellShaped, hds] at hd
    simp at hd
  next ss hcl =>
    have hds : data.sections = some (.cl ss) := hcl
    rw [structurallyWellShaped, hds] at hd
    have hsome := fixSectionList_isSome
      (l := ss.filter fun s => clausesTruthy s.clauses)
      (by intro s hs; exact List.all_eq_true.mp hd s hs)
    split
    next hn => rw [hn] at hsome; simp at hsome
    next fs hfs => rfl

/-- **C7.**  Auto-fix never mutates its input document.  First conjunct
(heap model): for every well-formed heap and every address, running
`clean_and_validate_contract_heap` leaves every pre-existing binding —
in particular the whole input document — unchanged, whether the call
succeeds or signals failure partway through (the result heap is the
final heap in both cases, so partial mutation would be visible).  Second
conjunct (value model): on structurally well-shaped input — no
non-collection where a collection is expected — the call never raises. -/
theorem autofix_no_input_mutation :
    (∀ (h : Heap) (a x : Nat), WFH h → x < h.next →
        lookupH (clean_and_validate_contract_heap h a).1 x = lookupH h x) ∧
    (∀ data : RawContract, structurallyWellShaped data = true →
        (clean_and_validate_contract data).isSome = true) := by
  constructor
  · intro h a x hwf hx
    have hf0 := HFrame_refl h hwf
    unfold clean_and_validate_contract_heap
    obtain ⟨hfd, hsome⟩ := (deepcopyH_frame (h.mem.length + 1)).1 h a hf0
    split
    next h1 hd =>
      rw [hd] at hfd
      exact hfd.ext x hx
    next h1 c hd =>
      rw [hd] at hfd hsome
      have hc : h.next ≤ c := hsome c rfl
      split
      next h2 hph =>
        have hfp := HFrame_hAutoFixPhase (h.mem.length + 1) hfd hc
        rw [hph] at hfp
        exact hfp.ext x hx
      next h2 hph =>
        have hfp := HFrame_hAutoFixPhase (h.mem.length + 1) hfd hc
        rw [hph] at hfp
        exact hfp.ext x hx
  · intro data hd
    exact autofix_total_of_wellShaped hd

/-- Concrete document heap for the C7 witness: a contract dict with a
title, a malformed effective date and an empty section list. -/
def c7Heap : Heap :=
  ⟨[(0, .hdict [("title", 1), ("effective_date", 2), ("sections", 3)]),
    (1, .hstr "T"), (2, .hstr "bad date"), (3, .hlist [])], 4⟩

/-- Concrete value-model document for the C7 witness. -/
def c7Doc : RawContract :=
  ⟨some (.vstr "T"), some (.vstr "NDA"), some (.vstr "bad date"), none⟩

theorem autofix_no_input_mutation_witness :
    (WFH c7Heap ∧ 0 < c7Heap.next ∧
      lookupH (clean_and_validate_contract_heap c7Heap 0).1 0 = lookupH c7Heap 0) ∧
    (structurallyWellShaped c7Doc = true ∧
      (clean_and_validate_contract c7Doc).isSome = true) :=
  ⟨⟨by decide, by decide,
    autofix_no_input_mutation.1 c7Heap 0 0 (by decide) (by decide)⟩,
   ⟨by decide, autofix_no_input_mutation.2 c7Doc (by decide)⟩⟩
